import Mathlib

/-!
Verification of the libcifpp v2 core against its natural-language
specification.  The definitions below are shallow embeddings of the C++
sources: pure functions become Lean functions, stateful routines become
explicit state passing, machine integers become `Nat` with explicit
`% 2 ^ w` where overflow matters, and fallible code returns `Except` or
`Option`.  Each definition's doc comment names the source function it
embeds; definitions for code whose implementation is not part of the
source tree are marked `Modelled from the spec:`.
-/

namespace Cif

/-- ASCII lower casing, A-Z only, as used by `cif::iequals` / `tolower`
in the C locale (spec 4.A, `src/src/validate.cpp` compare). -/
def toLowerAscii (c : Char) : Char :=
  if 65 ≤ c.toNat ∧ c.toNat ≤ 90 then Char.ofNat (c.toNat + 32) else c

/-- `cif::iequals` on character lists: ASCII-only case-insensitive
equality (byte wise, lower-casing A-Z only). -/
def iequals (a b : List Char) : Bool :=
  a.map toLowerAscii = b.map toLowerAscii

/-- C `isspace` in the C locale (space, \t, \n, \v, \f, \r). -/
def isspace_c (c : Char) : Bool :=
  c = ' ' ∨ c.toNat = 9 ∨ c.toNat = 10 ∨ c.toNat = 11 ∨ c.toNat = 12 ∨ c.toNat = 13

/-- C `isdigit`. -/
def isdigit_c (c : Char) : Bool :=
  48 ≤ c.toNat ∧ c.toNat ≤ 57

/-- The character traits table `sac_parser::kCharTraitsTable`
(`src/include/cif++/v2/parser.hpp` lines 122-130), indexed by
`ch - 0x20` for `0x20 ≤ ch ≤ 0x7f`.  Bit 0 = ordinary, bit 1 =
non-blank, bit 2 = text-lead, bit 3 = any-print. -/
def kCharTraitsTable : List Nat :=
  [14, 15, 14, 14, 14, 15, 15, 14, 15, 15, 15, 15, 15, 15, 15, 15,
   15, 15, 15, 15, 15, 15, 15, 15, 15, 15, 15, 10, 15, 15, 15, 15,
   15, 15, 15, 15, 15, 15, 15, 15, 15, 15, 15, 15, 15, 15, 15, 15,
   15, 15, 15, 15, 15, 15, 15, 15, 15, 15, 15, 14, 15, 14, 15, 14,
   15, 15, 15, 15, 15, 15, 15, 15, 15, 15, 15, 15, 15, 15, 15, 15,
   15, 15, 15, 15, 15, 15, 15, 15, 15, 15, 15, 15, 15, 15, 15, 0]

/-- Table lookup for a character code. -/
def charTrait (ch : Nat) : Nat :=
  if 32 ≤ ch ∧ ch ≤ 127 then kCharTraitsTable.getD (ch - 32) 0 else 0

/-- `sac_parser::is_ordinary`. -/
def is_ordinary (ch : Nat) : Bool :=
  32 ≤ ch ∧ ch ≤ 127 ∧ charTrait ch % 2 = 1

/-- `sac_parser::is_non_blank`. -/
def is_non_blank (ch : Nat) : Bool :=
  32 < ch ∧ ch ≤ 127 ∧ charTrait ch / 2 % 2 = 1

/-- `sac_parser::is_text_lead`. -/
def is_text_lead (ch : Nat) : Bool :=
  32 ≤ ch ∧ ch ≤ 127 ∧ charTrait ch / 4 % 2 = 1

/-- `sac_parser::is_any_print` (`\t` or a printable with bit 3 set). -/
def is_any_print (ch : Nat) : Bool :=
  ch = 9 ∨ (32 ≤ ch ∧ ch ≤ 127 ∧ charTrait ch / 8 % 2 = 1)

/-- `sac_parser::is_white` (`parser.hpp` lines 74-77):
`std::isspace(ch) or ch == '#'`.  Note that this includes the comment
character `#`, which is not whitespace. -/
def is_white (c : Char) : Bool :=
  isspace_c c ∨ c = '#'

-- --------------------------------------------------------------------
-- The tokenizer (`sac_parser::get_next_token`,
-- `src/include/cif++/v2/parser.hpp` lines 271-564).

/-- Token kinds, `sac_parser::CIFToken`. -/
inductive CIFToken
  | Unknown
  | Eof
  | DATA
  | LOOP
  | GLOBAL
  | SAVE
  | STOP
  | Tag
  | Value
  deriving DecidableEq

/-- Value kinds, `sac_parser::CIFValue`. -/
inductive CIFValue
  | Int
  | Float
  | Numeric
  | String
  | TextField
  | Inapplicable
  | Unknown
  deriving DecidableEq

/-- Scanner states, the `State` constants of `sac_parser`.
`FloatN` stands for `State::Float + N`, similarly `Int1` and
`TextField1`. -/
inductive ScanState
  | Start
  | White
  | Comment
  | TextField
  | TextField1
  | QuotedString
  | QuotedStringQuote
  | Tag
  | Float
  | Float1
  | Float2
  | Float3
  | Float4
  | Float5
  | Int
  | Int1
  | Value
  | DATA
  | SAVE
  deriving DecidableEq

/-- Outcome of one `get_next_token` call: the token kind, the value
type (`mTokenType`), the token text (`mTokenValue`) and the input not
yet consumed (the pushback buffer plus the rest of the stream). -/
structure TokenResult where
  token : CIFToken
  vtype : CIFValue
  text : List Char
  rest : List Char
  deriving DecidableEq

/-- The restart ladder `sac_parser::restart` (`parser.hpp` lines
241-269): the next hypothesis below `start`.  Only ever invoked with
`Start`, `Float` or `Int`. -/
def restartState (start : ScanState) : ScanState :=
  match start with
  | .Start => .Float
  | .Float => .Int
  | _ => .Value

/-- CR/LF translation done by `getNextChar` (`parser.hpp` lines
191-227): `\r\n` and a lone `\r` both become `\n`.  In the source the
translation happens at each fetch, but characters pushed back by
`retract` were already translated, so translating the whole stream
up front is observationally identical. -/
def normalize_crlf : List Char → List Char
  | [] => []
  | [c] => if c.toNat = 13 then ['\n'] else [c]
  | c :: d :: rest2 =>
    if c.toNat = 13 then
      if d = '\n' then '\n' :: normalize_crlf rest2
      else '\n' :: normalize_crlf (d :: rest2)
    else c :: normalize_crlf (d :: rest2)

/-- The scanner loop of `sac_parser::get_next_token`.  One recursive
call per loop iteration (one fetched character); `tok` is
`mTokenValue`, retracting a character means leaving it on `input`,
`restart` pushes the whole of `tok` back onto `input`.  `q` is
`quoteChar`, `bol` is `m_bol`.  `fuel` bounds the number of
iterations; every lemma below holds for any sufficiently large fuel
and the top-level entry point supplies a generous bound. -/
def scan (fuel : Nat) (state start : ScanState) (q : Char) (bol : Bool)
    (tok : List Char) (input : List Char) : Except String TokenResult :=
  match fuel with
  | 0 => Except.error "out of fuel"
  | fuel + 1 =>
    match input with
    | [] =>
      -- `ch == kEOF` handling of each state
      match state with
      | .Start => Except.ok ⟨.Eof, .Unknown, tok, []⟩
      | .White => Except.ok ⟨.Eof, .Unknown, tok, []⟩
      | .Comment => Except.ok ⟨.Eof, .Unknown, tok, []⟩
      | .TextField => Except.error "unterminated textfield"
      | .TextField1 => Except.error "unterminated textfield"
      | .QuotedString => Except.error "unterminated quoted string"
      | .QuotedStringQuote => Except.error "unterminated quoted string"
      | .Tag => Except.ok ⟨.Tag, .Unknown, tok, []⟩
      | .Float => scan fuel (restartState start) (restartState start) q false [] tok
      | .Float1 => Except.ok ⟨.Value, .Int, tok, []⟩
      | .Float2 => Except.ok ⟨.Value, .Float, tok, []⟩
      | .Float3 => scan fuel (restartState start) (restartState start) q false [] tok
      | .Float4 => scan fuel (restartState start) (restartState start) q false [] tok
      | .Float5 => Except.ok ⟨.Value, .Float, tok, []⟩
      | .Int => scan fuel (restartState start) (restartState start) q false [] tok
      | .Int1 => Except.ok ⟨.Value, .Int, tok, []⟩
      | .Value =>
        if tok = ['.'] then Except.ok ⟨.Value, .Inapplicable, tok, []⟩
        else if tok = ['?'] then Except.ok ⟨.Value, .Unknown, [], []⟩
        else Except.ok ⟨.Value, .Unknown, tok, []⟩
      | .DATA => Except.ok ⟨.DATA, .Unknown, tok.drop 5, []⟩
      | .SAVE => Except.ok ⟨.SAVE, .Unknown, tok.drop 5, []⟩
    | ch :: rest =>
      match state with
      | .Start =>
        if ch = '\n' then scan fuel .White start q true (tok ++ [ch]) rest
        else if ch = ' ' ∨ ch.toNat = 9 then scan fuel .White start q bol (tok ++ [ch]) rest
        else if ch = '#' then scan fuel .Comment start q bol (tok ++ [ch]) rest
        else if ch = '_' then scan fuel .Tag start q bol (tok ++ [ch]) rest
        else if ch = ';' ∧ bol then scan fuel .TextField start q bol (tok ++ [ch]) rest
        else if ch = '\'' ∨ ch = '"' then
          scan fuel .QuotedString start ch bol (tok ++ [ch]) rest
        else scan fuel (restartState start) (restartState start) q false [] (tok ++ ch :: rest)
      | .White =>
        if isspace_c ch then scan fuel .White start q (ch = '\n') (tok ++ [ch]) rest
        else scan fuel .Start start q bol [] (ch :: rest)
      | .Comment =>
        if ch = '\n' then scan fuel .Start start q true [] rest
        else if is_any_print ch.toNat then scan fuel .Comment start q bol (tok ++ [ch]) rest
        else Except.error "invalid character in comment"
      | .TextField =>
        -- non-printables only produce a warning and scanning continues
        if ch = '\n' then scan fuel .TextField1 start q bol (tok ++ [ch]) rest
        else scan fuel .TextField start q bol (tok ++ [ch]) rest
      | .TextField1 =>
        if is_text_lead ch.toNat ∨ ch = ' ' ∨ ch.toNat = 9 then
          scan fuel .TextField start q bol (tok ++ [ch]) rest
        else if ch = ';' then
          Except.ok ⟨.Value, .TextField, ((tok ++ [ch]).drop 1).dropLast.dropLast, rest⟩
        else if ch = '\n' then scan fuel .TextField1 start q bol (tok ++ [ch]) rest
        else Except.error "invalid character in text field"
      | .QuotedString =>
        -- a non-printable only produces a warning and scanning continues
        if ch = q then scan fuel .QuotedStringQuote start q bol (tok ++ [ch]) rest
        else scan fuel .QuotedString start q bol (tok ++ [ch]) rest
      | .QuotedStringQuote =>
        if is_white ch then
          if tok.length < 2 then Except.error "Invalid quoted string token"
          else Except.ok ⟨.Value, .String, (tok.drop 1).dropLast, ch :: rest⟩
        else if ch = q then scan fuel .QuotedStringQuote start q bol (tok ++ [ch]) rest
        else if is_any_print ch.toNat then scan fuel .QuotedString start q bol (tok ++ [ch]) rest
        else Except.error "invalid character in quoted string"
      | .Tag =>
        if is_non_blank ch.toNat then scan fuel .Tag start q bol (tok ++ [ch]) rest
        else Except.ok ⟨.Tag, .Unknown, tok, ch :: rest⟩
      | .Float =>
        if ch = '+' ∨ ch = '-' ∨ isdigit_c ch then
          scan fuel .Float1 start q bol (tok ++ [ch]) rest
        else scan fuel (restartState start) (restartState start) q false [] (tok ++ ch :: rest)
      | .Float1 =>
        if ch = '.' then scan fuel .Float2 start q bol (tok ++ [ch]) rest
        else if toLowerAscii ch = 'e' then scan fuel .Float3 start q bol (tok ++ [ch]) rest
        else if is_white ch then Except.ok ⟨.Value, .Int, tok, ch :: rest⟩
        else scan fuel (restartState start) (restartState start) q false [] (tok ++ ch :: rest)
      | .Float2 =>
        if toLowerAscii ch = 'e' then scan fuel .Float3 start q bol (tok ++ [ch]) rest
        else if is_white ch then Except.ok ⟨.Value, .Float, tok, ch :: rest⟩
        else scan fuel (restartState start) (restartState start) q false [] (tok ++ ch :: rest)
      | .Float3 =>
        if ch = '-' ∨ ch = '+' then scan fuel .Float4 start q bol (tok ++ [ch]) rest
        else if isdigit_c ch then scan fuel .Float5 start q bol (tok ++ [ch]) rest
        else scan fuel (restartState start) (restartState start) q false [] (tok ++ ch :: rest)
      | .Float4 =>
        if isdigit_c ch then scan fuel .Float5 start q bol (tok ++ [ch]) rest
        else scan fuel (restartState start) (restartState start) q false [] (tok ++ ch :: rest)
      | .Float5 =>
        if is_white ch then Except.ok ⟨.Value, .Float, tok, ch :: rest⟩
        else scan fuel (restartState start) (restartState start) q false [] (tok ++ ch :: rest)
      | .Int =>
        if isdigit_c ch ∨ ch = '+' ∨ ch = '-' then
          scan fuel .Int1 start q bol (tok ++ [ch]) rest
        else scan fuel (restartState start) (restartState start) q false [] (tok ++ ch :: rest)
      | .Int1 =>
        if is_white ch then Except.ok ⟨.Value, .Int, tok, ch :: rest⟩
        else scan fuel (restartState start) (restartState start) q false [] (tok ++ ch :: rest)
      | .Value =>
        if ch = '_' ∧ iequals (tok ++ [ch]) (String.toList "global_") then
          Except.ok ⟨.GLOBAL, .Unknown, tok ++ [ch], rest⟩
        else if ch = '_' ∧ iequals (tok ++ [ch]) (String.toList "stop_") then
          Except.ok ⟨.STOP, .Unknown, tok ++ [ch], rest⟩
        else if ch = '_' ∧ iequals (tok ++ [ch]) (String.toList "loop_") then
          Except.ok ⟨.LOOP, .Unknown, tok ++ [ch], rest⟩
        else if ch = '_' ∧ iequals (tok ++ [ch]) (String.toList "data_") then
          scan fuel .DATA start q bol (tok ++ [ch]) rest
        else if ch = '_' ∧ iequals (tok ++ [ch]) (String.toList "save_") then
          scan fuel .SAVE start q bol (tok ++ [ch]) rest
        else if is_non_blank ch.toNat then
          scan fuel .Value start q bol (tok ++ [ch]) rest
        else if tok = ['.'] then Except.ok ⟨.Value, .Inapplicable, tok, ch :: rest⟩
        else if tok = ['?'] then Except.ok ⟨.Value, .Unknown, [], ch :: rest⟩
        else Except.ok ⟨.Value, .Unknown, tok, ch :: rest⟩
      | .DATA =>
        if is_non_blank ch.toNat then scan fuel .DATA start q bol (tok ++ [ch]) rest
        else Except.ok ⟨.DATA, .Unknown, tok.drop 5, ch :: rest⟩
      | .SAVE =>
        if is_non_blank ch.toNat then scan fuel .SAVE start q bol (tok ++ [ch]) rest
        else Except.ok ⟨.SAVE, .Unknown, tok.drop 5, ch :: rest⟩

/-- One call of `sac_parser::get_next_token` on the (CR/LF
normalized) input.  The fuel bound is generous: the scanner consumes
one character per iteration and can replay the input at most three
times through the restart ladder. -/
def get_next_token (input : List Char) : Except String TokenResult :=
  scan (8 * input.length + 16) .Start .Start ' ' false [] (normalize_crlf input)

-- --------------------------------------------------------------------
-- `sac_parser::is_unquoted_string` (`parser.hpp` lines 100-119) and
-- the serializer's quoting decision.

/-- Does the lower-cased pattern `pat` occur in `s` (lower-cased) at
position `i`? -/
def matchAtFold (s : List Char) (i : Nat) (pat : List Char) : Bool :=
  ((s.map toLowerAscii).drop i).take pat.length = pat

/-- The reserved-word regular expression of `is_unquoted_string`:
`(^(?:data|save)|.*(?:loop|stop|global))_.+` matched case-insensitively
against the whole string (`std::regex_match`).  A full match exists
exactly when the string starts with `data_` or `save_` followed by at
least one character, or contains `loop_`, `stop_` or `global_`
followed by at least one character.  (`.` does not match a newline,
but `is_unquoted_string` only consults the expression after it has
checked that every character is non-blank, so no newline can occur.) -/
def reservedRx (s : List Char) : Bool :=
  (matchAtFold s 0 (String.toList "data_") ∧ 5 < s.length) ∨
  (matchAtFold s 0 (String.toList "save_") ∧ 5 < s.length) ∨
  (List.range s.length).any (fun i =>
    (matchAtFold s i (String.toList "loop_") ∧ i + 5 < s.length) ∨
    (matchAtFold s i (String.toList "stop_") ∧ i + 5 < s.length) ∨
    (matchAtFold s i (String.toList "global_") ∧ i + 7 < s.length))

/-- `sac_parser::is_unquoted_string`: the first character must be
ordinary, every further character non-blank, and the whole string must
not match the reserved-word expression.  The empty string fails the
first test (the C++ reads the NUL terminator there). -/
def is_unquoted_string (s : List Char) : Bool :=
  match s with
  | [] => false
  | c0 :: cs =>
    is_ordinary c0.toNat && cs.all (fun c => is_non_blank c.toNat) && !(reservedRx s)

/-- Modelled from the spec: the serializer's per-value quoting rule
(spec 4.J; `category::write` is not part of the source tree).  A value
is written unquoted if `is_unquoted_string` accepts it; single-quoted
if it contains no single quote and no newline; double-quoted if it
contains a single quote but no double quote; otherwise as a text
field.  The empty value is written as `.`. -/
def write_value (v : List Char) : List Char :=
  if v = [] then ['.']
  else if is_unquoted_string v then v
  else if ¬ v.contains '\'' ∧ ¬ v.contains '\n' then '\'' :: v ++ ['\'']
  else if ¬ v.contains '"' ∧ ¬ v.contains '\n' then '"' :: v ++ ['"']
  else '\n' :: ';' :: v ++ ['\n', ';', '\n']

-- --------------------------------------------------------------------
-- Item storage (`item_value`, `src/unnamed/part_001` lines 1440-1475,
-- and `category::create_item`, `category.hpp` lines 470-493).

/-- Where a cell's payload lives: in the 8-byte inline buffer
(`m_local_data`) or in a heap allocation (`m_data`). -/
inductive item_storage
  | inline_buf (payload : List Char)
  | heap (payload : List Char)
  deriving DecidableEq

/-- A stored cell.  `m_length` models the `uint16_t` length field, so
it carries the value modulo `2 ^ 16`. -/
structure item_value where
  m_column_ix : Nat
  m_length : Nat
  storage : item_storage
  deriving DecidableEq

/-- `item_value::kBufferSize = sizeof(m_local_data) = 8`. -/
def kBufferSize : Nat := 8

/-- The payload of a cell (`item_value::text`). -/
def item_value.payload (iv : item_value) : List Char :=
  match iv.storage with
  | .inline_buf p => p
  | .heap p => p

/-- `category::create_item(uint16_t, std::string_view)`
(`category.hpp` lines 470-493): refuse a text whose length plus one
exceeds 65535, otherwise store the text, inline when shorter than
`kBufferSize` and on the heap otherwise.  The stored length is the
`uint16_t` cast of the text length. -/
def create_item (column_ix : Nat) (text : List Char) : Except String item_value :=
  if text.length + 1 > 65535 then
    Except.error "libcifpp does not support string lengths longer than 65535 bytes"
  else
    Except.ok
      { m_column_ix := column_ix % 65536
        m_length := text.length % 65536
        storage := if text.length ≥ kBufferSize then .heap text else .inline_buf text }

-- --------------------------------------------------------------------
-- `type_validator::compare` (`src/src/validate.cpp` lines 100-195),
-- `Char`/`UChar` branches: byte-wise compare, lower-casing under
-- `UChar`, collapsing runs of spaces.  The `Numb` branch parses both
-- sides as doubles and is not modelled here (no claim depends on it).

/-- The character loop of `type_validator::compare`.  After two equal
space characters both sides skip the rest of their space run
(`while (ai[1] == ' ') ++ai;` followed by `++ai`).  The loop consumes
at least one character of each side per iteration, so the explicit
bound supplied by `charCmp` is never exhausted. -/
def charCmpF (uchar : Bool) : Nat → List Char → List Char → Int
  | 0, _, _ => 0
  | _ + 1, [], [] => 0
  | _ + 1, [], _ :: _ => -1
  | _ + 1, _ :: _, [] => 1
  | fuel + 1, a :: as, b :: bs =>
    let ca := if uchar then toLowerAscii a else a
    let cb := if uchar then toLowerAscii b else b
    if (ca.toNat : Int) - (cb.toNat : Int) ≠ 0 then (ca.toNat : Int) - (cb.toNat : Int)
    else if ca = ' ' then
      charCmpF uchar fuel (as.dropWhile (fun c => c = ' ')) (bs.dropWhile (fun c => c = ' '))
    else charCmpF uchar fuel as bs

/-- The character compare of `type_validator::compare`. -/
def charCmp (uchar : Bool) (a b : List Char) : Int :=
  charCmpF uchar (a.length + b.length + 1) a b

/-- `type_validator::compare` for `Char`/`UChar`: the empty string
sorts before anything non-empty. -/
def type_compare (uchar : Bool) (a b : List Char) : Int :=
  if a = [] then (if b = [] then 0 else -1)
  else if b = [] then 1
  else charCmp uchar a b

-- --------------------------------------------------------------------
-- The category store (`cif::v2::category`,
-- `src/include/cif++/v2/category.hpp`).

/-- A transient name/value pair used to construct rows
(`cif::v2::item`). -/
structure item where
  m_name : List Char
  m_value : List Char
  deriving DecidableEq

/-- The category-validator information a category consults: the
primary-key item names (`_category_key.name`) and, per known item
tag, whether its type primitive is `UChar`
(`category_validator` of `validate.cpp`). -/
structure cat_validator_model where
  m_keys : List (List Char)
  m_items : List (List Char × Bool)
  deriving DecidableEq

/-- A column of a category (`category::item_column`): its name and,
when an item validator is attached, whether that validator's type
primitive is `UChar`. -/
structure item_column where
  m_name : List Char
  m_uchar : Option Bool
  deriving DecidableEq

/-- The in-memory category: name, column table, optional validator
information, strictness of the attached validator, and the ordered
row list. -/
structure category where
  m_name : List Char
  m_columns : List item_column
  m_cat_validator : Option cat_validator_model
  m_strict : Bool
  m_rows : List (List item_value)
  deriving DecidableEq

/-- Look up the `UChar` flag of an item tag in the category
validator (`category_validator::get_validator_for_item`). -/
def lookup_item_uchar (cv : cat_validator_model) (nm : List Char) : Option Bool :=
  (cv.m_items.find? (fun kv => iequals kv.1 nm)).map Prod.snd

/-- `category::get_column_ix` (`category.hpp` lines 393-411): the
first column whose name equals `nm` case-insensitively, or the number
of columns when there is none. -/
def get_column_ix (cols : List item_column) (nm : List Char) : Nat :=
  match cols with
  | [] => 0
  | c :: cs => if iequals nm c.m_name then 0 else 1 + get_column_ix cs nm

/-- `category::add_column` (`category.hpp` lines 421-442): append a
new column for an unknown name; with a validator attached, an unknown
tag is reported (`report_error(..., false)`), which throws when the
validator is strict (`validator::report_error`, `validate.cpp` lines
374-381) and otherwise only warns, after which the column is still
appended. -/
def add_column (cat : category) (nm : List Char) : Except String (category × Nat) :=
  let ix := get_column_ix cat.m_columns nm
  if ix = cat.m_columns.length then
    match cat.m_cat_validator with
    | some cv =>
      match lookup_item_uchar cv nm with
      | some u => Except.ok ({cat with m_columns := cat.m_columns ++ [⟨nm, some u⟩]}, ix)
      | none =>
        if cat.m_strict then Except.error "tag not allowed in category"
        else Except.ok ({cat with m_columns := cat.m_columns ++ [⟨nm, none⟩]}, ix)
    | none => Except.ok ({cat with m_columns := cat.m_columns ++ [⟨nm, none⟩]}, ix)
  else Except.ok (cat, ix)

/-- The construction loop of `category::emplace` (`category.hpp`
lines 354-375): for each initializer item, `create_item(const item&)`
first calls `add_column` (possibly growing the column table) and then
`create_item(ix, value)` (which may throw on over-long values).  On
an exception the partially built row is deleted, but columns already
added remain.  Returns the category with its (possibly grown) column
table and either the built row or the error. -/
def emplace_items (cat : category) (items : List item) :
    category × Except String (List item_value) :=
  match items with
  | [] => (cat, Except.ok [])
  | i :: is =>
    match add_column cat i.m_name with
    | Except.error e => (cat, Except.error e)
    | Except.ok (cat1, ix) =>
      match create_item ix i.m_value with
      | Except.error e => (cat1, Except.error e)
      | Except.ok iv =>
        match emplace_items cat1 is with
        | (cat2, Except.error e) => (cat2, Except.error e)
        | (cat2, Except.ok ivs) => (cat2, Except.ok (iv :: ivs))

/-- The text stored in a row at the column named `nm`; a missing cell
reads as the empty string (an absent field). -/
def row_cell_text (cols : List item_column) (row : List item_value) (nm : List Char) :
    List Char :=
  match row.find? (fun iv => iv.m_column_ix = get_column_ix cols nm) with
  | some iv => iv.payload
  | none => []

/-- Do two rows agree on the primary-key tuple, comparing each key
column with `type_compare` and lower-casing `UChar`-typed keys?
(Spec 4.I / invariant of section 3.) -/
def same_key (cols : List item_column) (cv : cat_validator_model)
    (r1 r2 : List item_value) : Bool :=
  cv.m_keys.all fun k =>
    type_compare ((lookup_item_uchar cv k).getD false)
      (row_cell_text cols r1 k) (row_cell_text cols r2 k) = 0

/-- `category::emplace`: the construction loop is embedded from the
source (`category.hpp` lines 354-375); the final
`insert_impl(cend(), r)` is not part of the source tree, so its
behaviour is modelled from the spec: `Inserts at the tail; if a
primary key is configured, reject (DuplicateKey) when another row
already has the same key under UChar-aware compare.`  Returns the
category after the call together with the error, if any. -/
def category.emplace (cat : category) (items : List item) : category × Option String :=
  match emplace_items cat items with
  | (cat1, Except.error e) => (cat1, some e)
  | (cat1, Except.ok row) =>
    match cat1.m_cat_validator with
    | some cv =>
      if cv.m_keys ≠ [] ∧ cat1.m_rows.any (fun r0 => same_key cat1.m_columns cv r0 row) then
        (cat1, some "duplicate key")
      else ({cat1 with m_rows := cat1.m_rows ++ [row]}, none)
    | none => ({cat1 with m_rows := cat1.m_rows ++ [row]}, none)

-- --------------------------------------------------------------------
-- `cif::datablock` (`src/src/v2/condition.cpp`, second part).

/-- A data block: a name and its ordered category list. -/
structure datablock where
  m_name : List Char
  m_cats : List category
  deriving DecidableEq

/-- Split a list around the first element satisfying `p`. -/
def find_split (p : category → Bool) : List category → Option (List category × category × List category)
  | [] => none
  | c :: cs =>
    if p c then some ([], c, cs)
    else (find_split p cs).map (fun x => (c :: x.1, x.2.1, x.2.2))

/-- A freshly constructed empty category. -/
def mk_category (nm : List Char) : category :=
  ⟨nm, [], none, false, []⟩

/-- `datablock::emplace` (`condition.cpp` lines 197-227): look for a
category of the same name (case-insensitive); when found, splice it
to the front of the list and report `is_new = false`; otherwise
construct a new category at the front and report `is_new = true`.
The returned iterator is always `begin()`, i.e. the front. -/
def datablock.emplace (db : datablock) (nm : List Char) : datablock × Bool :=
  match find_split (fun c => iequals nm c.m_name) db.m_cats with
  | some (pre, c, post) => ({db with m_cats := c :: (pre ++ post)}, false)
  | none => ({db with m_cats := mk_category nm :: db.m_cats}, true)

/-- `datablock::operator[]` (`condition.cpp` lines 161-175): return
the existing category unchanged, or append a new one at the back. -/
def datablock.op_index (db : datablock) (nm : List Char) : datablock :=
  match db.m_cats.find? (fun c => iequals c.m_name nm) with
  | some _ => db
  | none => {db with m_cats := db.m_cats ++ [mk_category nm]}

-- --------------------------------------------------------------------
-- `item_validator::operator()` (`src/src/validate.cpp` lines
-- 219-232).

/-- `DDL_PrimitiveType` of `validate.hpp`. -/
inductive DDL_PrimitiveType
  | Char
  | UChar
  | Numb
  deriving DecidableEq

/-- A type validator: name, primitive type, and the compiled regular
expression abstracted as its match function (the claims constrain the
control flow around the regex, not the regex engine itself). -/
structure type_validator_model where
  m_name : List Char
  m_primitive_type : DDL_PrimitiveType
  m_rx : List Char → Bool

/-- An item validator: tag, optional type, enumeration set. -/
structure item_validator_model where
  m_tag : List Char
  m_type : Option type_validator_model
  m_enums : List (List Char)

/-- Modelled from the spec: membership in the enumeration set is
decided case-folded for items whose type primitive is `UChar` (spec
4.F; the declaration of the `m_enums` container is not under src/,
only its use in `validate.cpp` line 228). -/
def enum_member (prim : DDL_PrimitiveType) (enums : List (List Char)) (v : List Char) : Bool :=
  enums.any fun e => if prim = .UChar then iequals e v else e = v

/-- `item_validator::operator()`: a non-empty value other than `?`
and `.` must regex-match its type (when a type is attached) and, when
the enumeration set is non-empty, be a member of it.  Returns the
validation error, if any. -/
def item_validator_check (iv : item_validator_model) (value : List Char) : Option String :=
  if value ≠ [] ∧ value ≠ ['?'] ∧ value ≠ ['.'] then
    match iv.m_type with
    | some tv =>
      if ¬ tv.m_rx value then some "value does not match type expression"
      else if iv.m_enums ≠ [] ∧ ¬ enum_member tv.m_primitive_type iv.m_enums value then
        some "value is not in the list of allowed values"
      else none
    | none =>
      if iv.m_enums ≠ [] ∧ ¬ enum_member .Char iv.m_enums value then
        some "value is not in the list of allowed values"
      else none
  else none

-- --------------------------------------------------------------------
-- The update propagator (spec 4.I).  The implementations of
-- `category::update_value` and the cascading `category::erase` are
-- not part of the source tree (only their declarations,
-- `category.hpp` lines 345-347 and 444-449, and their tests are), so
-- the definitions below are modelled from the spec's words.  Rows are
-- association lists from column name to value; an absent binding is
-- the unknown (`?`) field.

/-- A row of a category, as visible to the cascade: column name to
value bindings.  An absent binding is an unknown field. -/
abbrev RowA := List (List Char × List Char)

/-- The value of a row at a column (case-insensitive column names). -/
def row_lookup (r : RowA) (nm : List Char) : Option (List Char) :=
  (r.find? (fun kv => iequals kv.1 nm)).map Prod.snd

/-- Rewrite the value of one column of a row (appending the binding
when it was absent). -/
def row_set (r : RowA) (nm v : List Char) : RowA :=
  if r.any (fun kv => iequals kv.1 nm) then
    r.map (fun kv => if iequals kv.1 nm then (kv.1, v) else kv)
  else r ++ [(nm, v)]

/-- Blank one column of a row (the field becomes unknown). -/
def row_blank (r : RowA) (nm : List Char) : RowA :=
  r.filter (fun kv => !(iequals kv.1 nm))

/-- Rewrite the columns `cols` of a row to the tuple `vals`
position-wise; a `none` tuple entry blanks the column. -/
def set_cols (r : RowA) (cols : List (List Char)) (vals : List (Option (List Char))) : RowA :=
  (cols.zip vals).foldl
    (fun acc kv =>
      match kv.2 with
      | some v => row_set acc kv.1 v
      | none => row_blank acc kv.1) r

/-- Blank all the columns `cols` of a row. -/
def blank_cols (r : RowA) (cols : List (List Char)) : RowA :=
  cols.foldl (fun acc c => row_blank acc c) r

/-- A link group (`link_validator` of `validate.hpp`): an N-column
foreign key between a parent and a child category, identified by
`link_group_id`. -/
structure link_group where
  link_group_id : Nat
  m_parent_category : List Char
  m_child_category : List Char
  m_parent_keys : List (List Char)
  m_child_keys : List (List Char)
  deriving DecidableEq

/-- A category as seen by the cascade: its name and its rows. -/
structure simple_category where
  s_name : List Char
  s_rows : List RowA
  deriving DecidableEq

/-- The rows of the named category of a block. -/
def block_rows (b : List simple_category) (nm : List Char) : List RowA :=
  match b.find? (fun c => iequals c.s_name nm) with
  | some c => c.s_rows
  | none => []

/-- The parent-side key tuple of a row for a link group. -/
def old_tuple (G : link_group) (p : RowA) : List (Option (List Char)) :=
  G.m_parent_keys.map (row_lookup p)

/-- The parent-side key tuple after the column `col` has been given
the new value `newVal`. -/
def new_tuple (G : link_group) (p : RowA) (col newVal : List Char) :
    List (Option (List Char)) :=
  G.m_parent_keys.map (fun k => if iequals k col then some newVal else row_lookup p k)

/-- Does the child row's full join tuple for `G` match the given
parent key tuple? -/
def child_matches (G : link_group) (t : List (Option (List Char))) (ch : RowA) : Bool :=
  (G.m_child_keys.zip t).all (fun kv => row_lookup ch kv.1 = kv.2)

/-- Does the link group `G2` of child row `ch` currently resolve to
some live parent row of the block `b`?  All join columns must be
present and some parent row must match them. -/
def link_resolves (b : List simple_category) (G2 : link_group) (ch : RowA) : Bool :=
  G2.m_child_keys.all (fun k => (row_lookup ch k).isSome) ∧
  (block_rows b G2.m_parent_category).any (fun p =>
    (G2.m_child_keys.zip G2.m_parent_keys).all
      (fun kv => row_lookup ch kv.1 = row_lookup p kv.2))

/-- Does the child row have another link group (different
`link_group_id`) that currently resolves to some live parent row? -/
def has_other_link (groups : List link_group) (b : List simple_category)
    (G : link_group) (ch : RowA) : Bool :=
  groups.any (fun G2 =>
    iequals G2.m_child_category G.m_child_category ∧
    G2.link_group_id ≠ G.link_group_id ∧ link_resolves b G2 ch)

/-- Modelled from the spec: the per-child action of `set_cell` for one
link group `G` (spec 4.I, `set_cell`, steps 1-2).  A child matching
the old parent tuple is split (clone inserted immediately after, with
exactly the `G.child_keys` columns rewritten to the new tuple) when it
has another resolving link group, and rewritten in place otherwise. -/
def update_step (groups : List link_group) (b : List simple_category) (G : link_group)
    (oldT newT : List (Option (List Char))) (ch : RowA) : List RowA :=
  if child_matches G oldT ch then
    if has_other_link groups b G ch then
      [ch, set_cols ch G.m_child_keys newT]
    else [set_cols ch G.m_child_keys newT]
  else [ch]

/-- The link groups that cascade when column `col` of a row of
`pcat` is rewritten and that target the child category `childName`:
their parent is `pcat` and their parent keys contain `col`. -/
def update_rel (groups : List link_group) (pcat col childName : List Char) :
    List link_group :=
  groups.filter (fun G =>
    iequals G.m_parent_category pcat ∧ iequals G.m_child_category childName ∧
    G.m_parent_keys.any (fun k => iequals k col))

/-- The fate of one row of the category named `childName` under the
cascade triggered by rewriting column `col` of parent row `p`: every
link group whose parent is the updated category and whose parent keys
contain the updated column is applied in turn. -/
def update_fate (groups : List link_group) (b : List simple_category)
    (pcat : List Char) (p : RowA) (col newVal : List Char)
    (childName : List Char) (ch : RowA) : List RowA :=
  (update_rel groups pcat col childName).foldl
    (fun lst G => lst.flatMap (update_step groups b G (old_tuple G p) (new_tuple G p col newVal)))
    [ch]

/-- Replace the first occurrence of a row in a row list. -/
def replace_row : List RowA → RowA → RowA → List RowA
  | [], _, _ => []
  | r :: rs, p, p2 => if r = p then p2 :: rs else r :: replace_row rs p p2

/-- Modelled from the spec: `category::update_value` on a parent-key
column (spec 4.I, `set_cell`): first fix every child of every link
group in which the updated category is the parent and the column is a
parent key, then rewrite the parent row's cell.  The `has other link`
checks read the pre-call state (`currently resolve`).  The spec's
recursion into grandchildren is outside the modelled fragment: the
claims quantify over direct children only. -/
def update_value_model (groups : List link_group) (b : List simple_category)
    (pcat : List Char) (p : RowA) (col newVal : List Char) : List simple_category :=
  let b1 := b.map (fun c =>
    { c with s_rows := c.s_rows.flatMap (update_fate groups b pcat p col newVal c.s_name) })
  b1.map (fun c =>
    if iequals c.s_name pcat then
      { c with s_rows := replace_row c.s_rows p (row_set p col newVal) }
    else c)

/-- Remove the first occurrence of a row from a row list. -/
def erase_first : List RowA → RowA → List RowA
  | [], _ => []
  | r :: rs, p => if r = p then rs else r :: erase_first rs p

/-- Modelled from the spec: the per-child action of `erase` for one
link group `G` (spec 4.I, `erase`): a child whose join tuple matches
the erased key is erased iff it has no other surviving link group
that still resolves (checked against the block `b2` with the parent
row already removed); otherwise only the columns of the removed link
are blanked. -/
def erase_step (groups : List link_group) (b2 : List simple_category) (G : link_group)
    (key : List (Option (List Char))) (och : Option RowA) : Option RowA :=
  match och with
  | none => none
  | some ch =>
    if child_matches G key ch then
      if has_other_link groups b2 G ch then some (blank_cols ch G.m_child_keys)
      else none
    else some ch

/-- The link groups that cascade when a row of `pcat` is erased and
that target the child category `childName`. -/
def erase_rel (groups : List link_group) (pcat childName : List Char) :
    List link_group :=
  groups.filter (fun G =>
    iequals G.m_parent_category pcat ∧ iequals G.m_child_category childName)

/-- The fate of one row of the category named `childName` under the
cascade triggered by erasing parent row `p` of `pcat`: every link
group with that parent category is applied in turn. -/
def erase_fate (groups : List link_group) (b2 : List simple_category)
    (pcat : List Char) (p : RowA) (childName : List Char) (ch : RowA) : Option RowA :=
  (erase_rel groups pcat childName).foldl
    (fun acc G => erase_step groups b2 G (old_tuple G p) acc) (some ch)

/-- The block with the erased parent row removed from its category
(the state against which `still resolves` is checked). -/
def parent_removed (b : List simple_category) (pcat : List Char) (p : RowA) :
    List simple_category :=
  b.map (fun c =>
    if iequals c.s_name pcat then { c with s_rows := erase_first c.s_rows p } else c)

/-- Modelled from the spec: the cascading `category::erase` of a
parent row (spec 4.I, `erase`): remove the parent row, then erase or
blank the matching children of every child link group, the
`still resolves` checks reading the block with the parent row already
removed. -/
def erase_row_model (groups : List link_group) (b : List simple_category)
    (pcat : List Char) (p : RowA) : List simple_category :=
  (parent_removed b pcat p).map (fun c =>
    { c with s_rows :=
        c.s_rows.filterMap (erase_fate groups (parent_removed b pcat p) pcat p c.s_name) })

-- --------------------------------------------------------------------
-- Auxiliary predicates used by the theorem statements.

/-- The value type the tokenizer assigns to a completed unquoted
lexeme: `Inapplicable` for `.`, otherwise `Unknown` (the numeric
types are assigned on the float/int accepting paths). -/
def valueType (l : List Char) : CIFValue :=
  if l = ['.'] then CIFValue.Inapplicable else CIFValue.Unknown

/-- The stored text of a completed unquoted lexeme: `?` stores the
empty string, everything else its own text. -/
def valueText (l : List Char) : List Char :=
  if l = ['?'] then [] else l

/-- The five reserved lexeme prefixes checked (lower-cased) by the
tokenizer's `Value` state at an underscore. -/
def is_reserved_lex (l : List Char) : Bool :=
  l = String.toList "global_" ∨ l = String.toList "stop_" ∨ l = String.toList "loop_" ∨
  l = String.toList "data_" ∨ l = String.toList "save_"

/-- A lexeme is reserved-free when no prefix ending in an underscore
lower-cases to one of the five reserved words. -/
def no_reserved (w : List Char) : Bool :=
  (List.range w.length).all fun i =>
    if w.getD i ' ' = '_' then
      ! is_reserved_lex (List.map toLowerAscii (w.take (i + 1)))
    else true

/-- Safety condition for a quoted-string content `w` with quote
character `q`: an embedded quote character is never followed by an
`is_white` character (that combination would close the string early)
and always followed by a printable (a non-printable after a quote is
a parse error). -/
def quote_safe (q : Char) (w : List Char) : Prop :=
  ∀ i, i + 1 < w.length → w.getD i ' ' = q →
    is_white (w.getD (i + 1) ' ') = false ∧ is_any_print (w.getD (i + 1) ' ').toNat = true

/-- Executable form of `quote_safe`, used as a hypothesis that a
witness can discharge by evaluation. -/
def quote_safeB (q : Char) (w : List Char) : Bool :=
  (List.range w.length).all fun i =>
    if i + 1 < w.length ∧ w.getD i ' ' = q then
      ! is_white (w.getD (i + 1) ' ') && is_any_print (w.getD (i + 1) ' ').toNat
    else true

/-- Claim-side reading of C5 (amended): the string, lower-cased,
starts with the pattern and continues with at least one character. -/
def starts_reserved (s pat : List Char) : Prop :=
  ∃ post, s.map toLowerAscii = pat ++ post ∧ post ≠ []

/-- Claim-side reading of C5 (amended): the string, lower-cased,
contains the pattern followed by at least one character. -/
def contains_reserved (s pat : List Char) : Prop :=
  ∃ pre post, s.map toLowerAscii = pre ++ pat ++ post ∧ post ≠ []

/-- Claim-side reading of C5 (amended), assembled: the first
character is ordinary, the rest are non-blank, the value does not
start with `data_`/`save_` followed by at least one character and
does not contain `loop_`/`stop_`/`global_` followed by at least one
character. -/
def unquoted_claim (s : List Char) : Prop :=
  (∃ c0 cs, s = c0 :: cs ∧ is_ordinary c0.toNat = true ∧
    (∀ c ∈ cs, is_non_blank c.toNat = true)) ∧
  ¬ starts_reserved s (String.toList "data_") ∧
  ¬ starts_reserved s (String.toList "save_") ∧
  ¬ contains_reserved s (String.toList "loop_") ∧
  ¬ contains_reserved s (String.toList "stop_") ∧
  ¬ contains_reserved s (String.toList "global_")

-- --------------------------------------------------------------------
-- Concrete fixtures used by witnesses and counterexamples.

/-- Shorthand: a string as a character list. -/
def sl (s : String) : List Char := s.toList

/-- A category validator with the `UChar`-typed key `id` (test `d2`
of the source tree). -/
def w_cv : cat_validator_model := ⟨[sl "id"], [(sl "id", true), (sl "c", false)]⟩

/-- A category holding one row with key `AAP` under a `UChar` key. -/
def w_cat : category :=
  ⟨sl "cat_1", [⟨sl "id", some true⟩, ⟨sl "c", some false⟩], some w_cv, false,
    [[⟨0, 3, item_storage.inline_buf (sl "AAP")⟩]]⟩

/-- Initializer items whose key `aap` collides with `AAP` under the
`UChar` compare. -/
def w_items : List item := [⟨sl "id", sl "aap"⟩, ⟨sl "c", sl "2e-aap"⟩]

/-- The row those items build. -/
def w_row : List item_value :=
  [⟨0, 3, item_storage.inline_buf (sl "aap")⟩, ⟨1, 6, item_storage.inline_buf (sl "2e-aap")⟩]

/-- A strict category with one known tag and no columns yet. -/
def w_strict_cat : category := ⟨sl "cat_s", [], some ⟨[], [(sl "known", false)]⟩, true, []⟩

/-- An initializer whose first item adds a column and whose second
item fails validation (unknown tag, strict validator). -/
def w_bad_items : List item := [⟨sl "known", sl "v"⟩, ⟨sl "x", sl "v"⟩]

/-- Link group 1: `p1.id` to `ch.a`. -/
def w_G1 : link_group := ⟨1, sl "p1", sl "ch", [sl "id"], [sl "a"]⟩

/-- Link group 2: `p2.pid` to `ch.b`. -/
def w_G2 : link_group := ⟨2, sl "p2", sl "ch", [sl "pid"], [sl "b"]⟩

/-- Both link groups. -/
def w_groups : List link_group := [w_G1, w_G2]

/-- The parent row of `p1` whose key is rewritten or erased. -/
def w_prow : RowA := [(sl "id", sl "1")]

/-- A child row joined to `p1` through group 1 and to `p2` through
group 2 (the alternative surviving parent). -/
def w_chrow : RowA := [(sl "cid", sl "9"), (sl "a", sl "1"), (sl "b", sl "7")]

/-- A child row joined only to `p1` through group 1. -/
def w_chrow2 : RowA := [(sl "cid", sl "8"), (sl "a", sl "1")]

/-- A block with both parents and the doubly-linked child. -/
def w_block : List simple_category :=
  [⟨sl "p1", [w_prow]⟩, ⟨sl "p2", [[(sl "pid", sl "7")]]⟩, ⟨sl "ch", [w_chrow]⟩]

/-- A block with both parents and both children. -/
def w_block2 : List simple_category :=
  [⟨sl "p1", [w_prow]⟩, ⟨sl "p2", [[(sl "pid", sl "7")]]⟩, ⟨sl "ch", [w_chrow, w_chrow2]⟩]

-- ====================================================================
-- Theorems.
-- ====================================================================

/-- Claim C10: every cell is created through `create_item`; a value
whose byte length plus one exceeds 65535 makes the operation throw
before any cell is stored, and every stored cell's 16-bit length
field equals the exact byte length of its payload, with payloads
shorter than 8 bytes stored inline and payloads of 8 bytes or more
stored in a heap buffer. -/
theorem create_item_correct (ix : Nat) (text : List Char) :
    (text.length + 1 > 65535 → ∃ e, create_item ix text = Except.error e) ∧
    (text.length + 1 ≤ 65535 →
      ∃ iv, create_item ix text = Except.ok iv ∧
        iv.m_length = text.length ∧
        iv.payload = text ∧
        (text.length < kBufferSize → iv.storage = item_storage.inline_buf text) ∧
        (kBufferSize ≤ text.length → iv.storage = item_storage.heap text)) := by
  constructor
  · intro h
    refine ⟨"libcifpp does not support string lengths longer than 65535 bytes", ?_⟩
    simp [create_item, h]
  · intro h
    have hlt : text.length % 65536 = text.length := Nat.mod_eq_of_lt (by omega)
    refine ⟨{ m_column_ix := ix % 65536, m_length := text.length % 65536,
              storage := if text.length ≥ kBufferSize then item_storage.heap text
                         else item_storage.inline_buf text },
            by simp only [create_item, show ¬ (text.length + 1 > 65535) by omega, if_false],
            hlt, ?_, ?_, ?_⟩
    · by_cases hb : text.length ≥ kBufferSize <;>
        simp [item_value.payload, hb]
    · intro hlen
      simp [show ¬ text.length ≥ kBufferSize by omega]
    · intro hlen
      simp [show text.length ≥ kBufferSize from hlen]

/-- Witness for C10 at the 8-byte payload `abcdefgh` (stored on the
heap, length field 8). -/
theorem create_item_correct_witness :
    (String.toList "abcdefgh").length + 1 ≤ 65535 ∧
    (∃ iv, create_item 3 (String.toList "abcdefgh") = Except.ok iv ∧
      iv.m_length = (String.toList "abcdefgh").length ∧
      iv.payload = String.toList "abcdefgh" ∧
      ((String.toList "abcdefgh").length < kBufferSize →
        iv.storage = item_storage.inline_buf (String.toList "abcdefgh")) ∧
      (kBufferSize ≤ (String.toList "abcdefgh").length →
        iv.storage = item_storage.heap (String.toList "abcdefgh"))) :=
  ⟨by decide, (create_item_correct 3 (String.toList "abcdefgh")).2 (by decide)⟩

/-- Claim C9: applied to a value that is non-empty and neither `.`
nor `?`, an item validator with a type fails exactly when the value
does not regex-match the type pattern or, when the enum set is
non-empty, when the value is not a member of the enum set, membership
being decided case-folded for `UChar`-typed items. -/
theorem item_validator_check_correct (iv : item_validator_model)
    (tv : type_validator_model) (value : List Char)
    (htype : iv.m_type = some tv)
    (h1 : value ≠ []) (h2 : value ≠ ['?']) (h3 : value ≠ ['.']) :
    ((item_validator_check iv value).isSome ↔
      (tv.m_rx value = false ∨
        (iv.m_enums ≠ [] ∧ enum_member tv.m_primitive_type iv.m_enums value = false))) := by
  simp only [item_validator_check, htype, h1, h2, h3, ne_eq, not_false_eq_true,
    and_self, if_true]
  by_cases hrx : tv.m_rx value
  · by_cases hen : iv.m_enums = []
    · simp [hrx, hen]
    · by_cases hmem : enum_member tv.m_primitive_type iv.m_enums value
      · simp [hrx, hen, hmem]
      · simp [hrx, hen, hmem]
  · have hrx2 : tv.m_rx value = false := by
      revert hrx
      cases tv.m_rx value <;> simp
    simp [hrx2]

/-- Witness for C9: a `UChar`-typed item whose enum set holds `AAP`
accepts `aap` (case-folded membership) but rejects `noot`. -/
theorem item_validator_check_correct_witness :
    (⟨String.toList "c",
      some ⟨String.toList "ucode", DDL_PrimitiveType.UChar, fun _ => true⟩,
      [String.toList "AAP"]⟩ : item_validator_model).m_type =
        some ⟨String.toList "ucode", DDL_PrimitiveType.UChar, fun _ => true⟩ ∧
    ((item_validator_check
        ⟨String.toList "c",
          some ⟨String.toList "ucode", DDL_PrimitiveType.UChar, fun _ => true⟩,
          [String.toList "AAP"]⟩ (String.toList "noot")).isSome ↔
      ((fun (_ : List Char) => true) (String.toList "noot") = false ∨
        ([String.toList "AAP"] ≠ ([] : List (List Char)) ∧
          enum_member DDL_PrimitiveType.UChar [String.toList "AAP"]
            (String.toList "noot") = false))) :=
  ⟨rfl,
    item_validator_check_correct
      ⟨String.toList "c",
        some ⟨String.toList "ucode", DDL_PrimitiveType.UChar, fun _ => true⟩,
        [String.toList "AAP"]⟩
      ⟨String.toList "ucode", DDL_PrimitiveType.UChar, fun _ => true⟩
      (String.toList "noot") rfl (by decide) (by decide) (by decide)⟩

/-- `iequals` is symmetric. -/
theorem iequals_comm (a b : List Char) : iequals a b = iequals b a := by
  simp [iequals, eq_comm]

/-- When `find?` locates an element, `find_split` splits the list
around that same (first matching) element, and the element moved to
the front is a permutation of the original list. -/
theorem find_split_of_find (p : category → Bool) :
    ∀ (l : List category) (c0 : category), l.find? p = some c0 →
      ∃ pre post, find_split p l = some (pre, c0, post) ∧
        List.Perm (c0 :: (pre ++ post)) l := by
  intro l
  induction l with
  | nil => intro c0 h; simp [List.find?] at h
  | cons a l ih =>
    intro c0 h
    by_cases hp : p a
    · have : c0 = a := by
        simp [List.find?, hp] at h
        exact h.symm
      subst this
      exact ⟨[], l, by simp [find_split, hp], by simp⟩
    · have h2 : l.find? p = some c0 := by
        simpa [List.find?, hp] using h
      obtain ⟨pre, post, hfs, hperm⟩ := ih c0 h2
      refine ⟨a :: pre, post, by simp [find_split, hp, hfs], ?_⟩
      have h3 : List.Perm (c0 :: (a :: pre ++ post)) (a :: c0 :: (pre ++ post)) := by
        simpa using List.Perm.swap a c0 (pre ++ post)
      exact h3.trans (hperm.cons a)

/-- Claim C8: a second `datablock::emplace` of an existing category
name (case-insensitively equal) creates no new category
(`is_new = false`), returns the existing category (now at the front),
and only permutes the category list, each category's contents
unchanged; `operator[]`, the non-promoting lookup, leaves the block
entirely unchanged. -/
theorem datablock_emplace_idempotent (db : datablock) (nm : List Char) (c0 : category)
    (h : db.m_cats.find? (fun c => iequals nm c.m_name) = some c0) :
    (datablock.emplace db nm).2 = false ∧
    (datablock.emplace db nm).1.m_cats.head? = some c0 ∧
    List.Perm (datablock.emplace db nm).1.m_cats db.m_cats ∧
    (datablock.emplace db nm).1.m_name = db.m_name ∧
    datablock.op_index db nm = db := by
  obtain ⟨pre, post, hfs, hperm⟩ :=
    find_split_of_find (fun c => iequals nm c.m_name) db.m_cats c0 h
  have hop : db.m_cats.find? (fun c => iequals c.m_name nm) = some c0 := by
    have : (fun c : category => iequals c.m_name nm) =
        (fun c : category => iequals nm c.m_name) := by
      funext c
      exact iequals_comm c.m_name nm
    rw [this]
    exact h
  refine ⟨?_, ?_, ?_, ?_, ?_⟩
  · simp [datablock.emplace, hfs]
  · simp [datablock.emplace, hfs]
  · simpa [datablock.emplace, hfs] using hperm
  · simp [datablock.emplace, hfs]
  · simp [datablock.op_index, hop]

/-- Witness for C8 on a two-category block: re-emplacing `cat_2`
promotes it, keeps the category set, and `operator[]` does not
reorder. -/
theorem datablock_emplace_idempotent_witness :
    ((⟨String.toList "b",
        [mk_category (String.toList "cat_1"), mk_category (String.toList "cat_2")]⟩ :
          datablock).m_cats.find?
        (fun c => iequals (String.toList "CAT_2") c.m_name) =
      some (mk_category (String.toList "cat_2"))) ∧
    ((datablock.emplace
        ⟨String.toList "b",
          [mk_category (String.toList "cat_1"), mk_category (String.toList "cat_2")]⟩
        (String.toList "CAT_2")).2 = false ∧
      (datablock.emplace
        ⟨String.toList "b",
          [mk_category (String.toList "cat_1"), mk_category (String.toList "cat_2")]⟩
        (String.toList "CAT_2")).1.m_cats.head? =
          some (mk_category (String.toList "cat_2")) ∧
      List.Perm
        (datablock.emplace
          ⟨String.toList "b",
            [mk_category (String.toList "cat_1"), mk_category (String.toList "cat_2")]⟩
          (String.toList "CAT_2")).1.m_cats
        [mk_category (String.toList "cat_1"), mk_category (String.toList "cat_2")] ∧
      (datablock.emplace
        ⟨String.toList "b",
          [mk_category (String.toList "cat_1"), mk_category (String.toList "cat_2")]⟩
        (String.toList "CAT_2")).1.m_name = String.toList "b" ∧
      datablock.op_index
        ⟨String.toList "b",
          [mk_category (String.toList "cat_1"), mk_category (String.toList "cat_2")]⟩
        (String.toList "CAT_2") =
        ⟨String.toList "b",
          [mk_category (String.toList "cat_1"), mk_category (String.toList "cat_2")]⟩) :=
  ⟨by decide,
    datablock_emplace_idempotent
      ⟨String.toList "b",
        [mk_category (String.toList "cat_1"), mk_category (String.toList "cat_2")]⟩
      (String.toList "CAT_2") (mk_category (String.toList "cat_2")) (by decide)⟩

/-- `add_column` changes nothing but the column table, which it can
only extend. -/
theorem add_column_state (cat : category) (nm : List Char) (cat1 : category) (ix : Nat)
    (h : add_column cat nm = Except.ok (cat1, ix)) :
    cat1.m_name = cat.m_name ∧ cat1.m_cat_validator = cat.m_cat_validator ∧
    cat1.m_strict = cat.m_strict ∧ cat1.m_rows = cat.m_rows ∧
    ∃ suf, cat1.m_columns = cat.m_columns ++ suf := by
  by_cases hix : get_column_ix cat.m_columns nm = cat.m_columns.length
  · cases hv : cat.m_cat_validator with
    | none =>
      simp only [add_column, hix, if_true, hv] at h
      cases h
      simp
    | some cv =>
      cases hu : lookup_item_uchar cv nm with
      | some u =>
        simp only [add_column, hix, if_true, hv, hu] at h
        cases h
        simp
      | none =>
        by_cases hs : cat.m_strict
        · simp [add_column, hix, hv, hu, hs] at h
        · have hs2 : cat.m_strict = false := by
            revert hs
            cases cat.m_strict <;> simp
          simp only [add_column, hix, if_true, hv, hu, hs2, Bool.false_eq_true,
            if_false] at h
          cases h
          simp [hs2]
  · simp only [add_column, hix, if_false] at h
    cases h
    exact ⟨rfl, rfl, rfl, rfl, [], by simp⟩

/-- The construction loop of `emplace` changes nothing but the column
table, which it can only extend (even when it fails part way). -/
theorem emplace_items_state (items : List item) :
    ∀ (cat : category),
      (emplace_items cat items).1.m_name = cat.m_name ∧
      (emplace_items cat items).1.m_cat_validator = cat.m_cat_validator ∧
      (emplace_items cat items).1.m_strict = cat.m_strict ∧
      (emplace_items cat items).1.m_rows = cat.m_rows ∧
      ∃ suf, (emplace_items cat items).1.m_columns = cat.m_columns ++ suf := by
  induction items with
  | nil => intro cat; exact ⟨rfl, rfl, rfl, rfl, [], by simp [emplace_items]⟩
  | cons i is ih =>
    intro cat
    cases hac : add_column cat i.m_name with
    | error e => simp [emplace_items, hac]
    | ok pr =>
      obtain ⟨cat1, ix⟩ := pr
      obtain ⟨hn, hv, hs, hr, suf1, hc⟩ := add_column_state cat i.m_name cat1 ix hac
      cases hci : create_item ix i.m_value with
      | error e =>
        simp only [emplace_items, hac, hci]
        exact ⟨hn, hv, hs, hr, suf1, hc⟩
      | ok iv =>
        obtain ⟨hn2, hv2, hs2, hr2, suf2, hc2⟩ := ih cat1
        cases hrec : emplace_items cat1 is with
        | mk cat2 r =>
          have hn2' : cat2.m_name = cat1.m_name := by rw [hrec] at hn2; exact hn2
          have hv2' : cat2.m_cat_validator = cat1.m_cat_validator := by
            rw [hrec] at hv2; exact hv2
          have hs2' : cat2.m_strict = cat1.m_strict := by rw [hrec] at hs2; exact hs2
          have hr2' : cat2.m_rows = cat1.m_rows := by rw [hrec] at hr2; exact hr2
          have hc2' : cat2.m_columns = cat1.m_columns ++ suf2 := by
            rw [hrec] at hc2; exact hc2
          cases r with
          | error e =>
            simp only [emplace_items, hac, hci, hrec]
            exact ⟨hn2'.trans hn, hv2'.trans hv, hs2'.trans hs, hr2'.trans hr,
              suf1 ++ suf2, by rw [hc2', hc, List.append_assoc]⟩
          | ok ivs =>
            simp only [emplace_items, hac, hci, hrec]
            exact ⟨hn2'.trans hn, hv2'.trans hv, hs2'.trans hs, hr2'.trans hr,
              suf1 ++ suf2, by rw [hc2', hc, List.append_assoc]⟩

/-- Claim C3: with a primary key configured, `emplace` of a new row
inserts it at the tail of the row list, and throws a duplicate-key
error exactly when another row already holds the same primary-key
tuple under the `UChar`-aware compare (`same_key`, which lower-cases
`UChar`-typed key columns). -/
theorem category_emplace_correct (cat : category) (cv : cat_validator_model)
    (items : List item) (cat1 : category) (row : List item_value)
    (hv : cat.m_cat_validator = some cv)
    (hk : cv.m_keys ≠ [])
    (hbuild : emplace_items cat items = (cat1, Except.ok row)) :
    (cat1.m_rows.any (fun r0 => same_key cat1.m_columns cv r0 row) = true →
      category.emplace cat items = (cat1, some "duplicate key")) ∧
    (cat1.m_rows.any (fun r0 => same_key cat1.m_columns cv r0 row) = false →
      category.emplace cat items =
        ({cat1 with m_rows := cat1.m_rows ++ [row]}, none)) := by
  have hstate := emplace_items_state items cat
  rw [hbuild] at hstate
  have hv1 : cat1.m_cat_validator = some cv := hstate.2.1.trans hv
  constructor
  · intro hdup
    simp [category.emplace, hbuild, hv1, hk, hdup]
  · intro hdup
    simp [category.emplace, hbuild, hv1, hk, hdup]

/-- Claim C4 (amended): when a mutating `emplace` fails, no row is
added or removed and no existing cell changes; only columns appended
before the failure may remain in the column table. -/
theorem category_emplace_fail_state (cat : category) (items : List item) :
    (category.emplace cat items).2.isSome = true →
      (category.emplace cat items).1.m_rows = cat.m_rows ∧
      (category.emplace cat items).1.m_name = cat.m_name ∧
      ∃ suf, (category.emplace cat items).1.m_columns = cat.m_columns ++ suf := by
  intro hfail
  have hstate := emplace_items_state items cat
  cases hrec : emplace_items cat items with
  | mk cat1 r =>
    rw [hrec] at hstate
    obtain ⟨hn, hv, hs, hr, suf, hc⟩ := hstate
    cases r with
    | error e =>
      simp only [category.emplace, hrec]
      exact ⟨hr, hn, suf, hc⟩
    | ok row =>
      cases hv1 : cat1.m_cat_validator with
      | none =>
        simp [category.emplace, hrec, hv1] at hfail
      | some cv =>
        simp only [category.emplace, hrec, hv1] at hfail ⊢
        by_cases hdup : cv.m_keys ≠ [] ∧
            (cat1.m_rows.any fun r0 => same_key cat1.m_columns cv r0 row) = true
        · rw [if_pos hdup]
          exact ⟨hr, hn, suf, hc⟩
        · rw [if_neg hdup] at hfail
          simp at hfail

/-- `iequals` holds exactly when the lower-cased character lists
agree. -/
theorem iequals_eq_true_iff (a b : List Char) :
    iequals a b = true ↔ a.map toLowerAscii = b.map toLowerAscii := by
  simp [iequals]

/-- `iequals` is reflexive. -/
theorem iequals_self (a : List Char) : iequals a a = true := by
  simp [iequals]

/-- `iequals` is transitive. -/
theorem iequals_trans (x y z : List Char) (h1 : iequals x y = true)
    (h2 : iequals y z = true) : iequals x z = true := by
  rw [iequals_eq_true_iff] at h1 h2 ⊢
  rw [h1, h2]

/-- Setting a column leaves the lookup of any other column name
unchanged. -/
theorem row_lookup_set_other (r : RowA) (k v nm : List Char)
    (h : iequals nm k = false) :
    row_lookup (row_set r k v) nm = row_lookup r nm := by
  simp only [row_set]
  by_cases hany : r.any (fun kv => iequals kv.1 k)
  · simp only [hany, if_true, row_lookup, List.find?_map]
    have hcong : ((fun kv : List Char × List Char => iequals kv.1 nm) ∘
        (fun kv : List Char × List Char => if iequals kv.1 k then (kv.1, v) else kv)) =
        (fun kv : List Char × List Char => iequals kv.1 nm) := by
      funext kv
      by_cases hk : iequals kv.1 k <;> simp [hk]
    rw [hcong]
    cases hfind : r.find? (fun kv => iequals kv.1 nm) with
    | none => simp
    | some kv =>
      have hp := List.find?_some hfind
      have hkv : iequals kv.1 k = false := by
        by_contra hcon
        simp only [Bool.not_eq_false] at hcon
        have : iequals nm k = true := by
          rw [iequals_comm] at hp
          exact iequals_trans nm kv.1 k hp hcon
        rw [this] at h
        cases h
      simp [hkv]
  · simp only [hany, Bool.false_eq_true, if_false, row_lookup, List.find?_append]
    have hsingle : List.find? (fun kv => iequals kv.1 nm) [(k, v)] = none := by
      simp only [List.find?_cons, List.find?_nil]
      rw [iequals_comm] at h
      simp [h]
    rw [hsingle]
    cases r.find? (fun kv => iequals kv.1 nm) <;> simp

/-- Setting a column makes its own lookup (under any case-equivalent
name) return the new value. -/
theorem row_lookup_set_self (r : RowA) (k v nm : List Char)
    (h : iequals nm k = true) :
    row_lookup (row_set r k v) nm = some v := by
  simp only [row_set]
  by_cases hany : r.any (fun kv => iequals kv.1 k)
  · simp only [hany, if_true, row_lookup, List.find?_map]
    have hcong : ((fun kv : List Char × List Char => iequals kv.1 nm) ∘
        (fun kv : List Char × List Char => if iequals kv.1 k then (kv.1, v) else kv)) =
        (fun kv : List Char × List Char => iequals kv.1 nm) := by
      funext kv
      by_cases hk : iequals kv.1 k <;> simp [hk]
    rw [hcong]
    rw [List.any_eq_true] at hany
    obtain ⟨kv0, hmem, hkv0⟩ := hany
    have hsome : (r.find? (fun kv => iequals kv.1 nm)).isSome := by
      rw [List.find?_isSome]
      refine ⟨kv0, hmem, ?_⟩
      exact iequals_trans kv0.1 k nm hkv0 (by rw [iequals_comm]; exact h)
    cases hfind : r.find? (fun kv => iequals kv.1 nm) with
    | none => rw [hfind] at hsome; simp at hsome
    | some kv =>
      have hp := List.find?_some hfind
      have hkv : iequals kv.1 k = true := iequals_trans kv.1 nm k hp h
      simp [hkv]
  · simp only [hany, Bool.false_eq_true, if_false, row_lookup, List.find?_append]
    have hnone : r.find? (fun kv => iequals kv.1 nm) = none := by
      rw [List.find?_eq_none]
      intro kv hmem hcon
      rw [List.any_eq_true] at hany
      exact hany ⟨kv, hmem, iequals_trans kv.1 nm k hcon h⟩
    rw [hnone]
    have hk : iequals k nm = true := by rw [iequals_comm]; exact h
    simp [List.find?_cons, hk]

/-- Blanking a column leaves the lookup of any other column name
unchanged. -/
theorem row_lookup_blank_other (r : RowA) (k nm : List Char)
    (h : iequals nm k = false) :
    row_lookup (row_blank r k) nm = row_lookup r nm := by
  simp only [row_blank, row_lookup]
  induction r with
  | nil => simp
  | cons kv rest ih =>
    by_cases hk : iequals kv.1 k
    · have hnm : iequals kv.1 nm = false := by
        by_contra hcon
        simp only [Bool.not_eq_false] at hcon
        have : iequals nm k = true := by
          rw [iequals_comm] at hcon
          exact iequals_trans nm kv.1 k hcon hk
        rw [this] at h
        cases h
      simp only [List.filter_cons, hk, Bool.not_true, Bool.false_eq_true, if_false,
        List.find?_cons, hnm]
      exact ih
    · have hk2 : iequals kv.1 k = false := by
        revert hk
        cases iequals kv.1 k <;> simp
      simp only [List.filter_cons, hk2, Bool.not_false, if_true, List.find?_cons]
      by_cases hnm : iequals kv.1 nm
      · simp [hnm]
      · have hnm2 : iequals kv.1 nm = false := by
          revert hnm
          cases iequals kv.1 nm <;> simp
        simp only [hnm2, Bool.false_eq_true, if_false]
        exact ih

/-- Blanking a column makes its lookup return `none`. -/
theorem row_lookup_blank_self (r : RowA) (k nm : List Char)
    (h : iequals nm k = true) :
    row_lookup (row_blank r k) nm = none := by
  simp only [row_blank, row_lookup]
  have hnone : List.find? (fun kv => iequals kv.1 nm)
      (r.filter (fun kv => !(iequals kv.1 k))) = none := by
    rw [List.find?_eq_none]
    intro kv hmem hcon
    rw [List.mem_filter] at hmem
    have hk : iequals kv.1 k = true := iequals_trans kv.1 nm k hcon h
    rw [hk] at hmem
    simp at hmem
  rw [hnone]
  rfl

/-- A lookup that already misses stays a miss after blanking another
column. -/
theorem row_lookup_blank_none (r : RowA) (k nm : List Char)
    (h : row_lookup r nm = none) :
    row_lookup (row_blank r k) nm = none := by
  simp only [row_blank, row_lookup] at h ⊢
  cases hfind : List.find? (fun kv => iequals kv.1 nm) (r.filter (fun kv => !(iequals kv.1 k))) with
  | none => rfl
  | some kv =>
    have hp := List.find?_some hfind
    have hmem := List.mem_filter.1 (List.mem_of_find?_eq_some hfind)
    cases hfr : r.find? (fun kv => iequals kv.1 nm) with
    | none =>
      rw [List.find?_eq_none] at hfr
      exact absurd hp (by simp [hfr kv hmem.1])
    | some kv2 => rw [hfr] at h; simp at h

/-- Unfolding `set_cols` one column at a time. -/
theorem set_cols_cons (r : RowA) (k : List Char) (ks : List (List Char))
    (v : Option (List Char)) (vs : List (Option (List Char))) :
    set_cols r (k :: ks) (v :: vs) =
      set_cols (match v with | some x => row_set r k x | none => row_blank r k) ks vs := by
  cases v <;> simp [set_cols]

/-- `set_cols` with an exhausted tuple does nothing. -/
theorem set_cols_nil_vals (r : RowA) (cols : List (List Char)) :
    set_cols r cols [] = r := by
  cases cols <;> simp [set_cols]

/-- `set_cols` leaves every column that is not one of the rewritten
key columns unchanged. -/
theorem set_cols_lookup_other (cols : List (List Char)) :
    ∀ (vals : List (Option (List Char))) (r : RowA) (nm : List Char),
      (∀ k ∈ cols, iequals nm k = false) →
      row_lookup (set_cols r cols vals) nm = row_lookup r nm := by
  induction cols with
  | nil => intro vals r nm _; simp [set_cols]
  | cons k ks ih =>
    intro vals r nm hk
    cases vals with
    | nil => rw [set_cols_nil_vals]
    | cons v vs =>
      rw [set_cols_cons]
      have h1 := hk k (by simp)
      have h2 : ∀ k2 ∈ ks, iequals nm k2 = false := fun k2 hmem => hk k2 (by simp [hmem])
      cases v with
      | some x => rw [ih vs _ nm h2, row_lookup_set_other r k x nm h1]
      | none => rw [ih vs _ nm h2, row_lookup_blank_other r k nm h1]

/-- `set_cols` rewrites each key column to the corresponding tuple
entry (pairwise-distinct key columns; a `none` entry blanks the
column). -/
theorem set_cols_lookup_hit (cols : List (List Char)) :
    ∀ (vals : List (Option (List Char))) (r : RowA) (i : Nat),
      i < cols.length → i < vals.length →
      cols.Pairwise (fun a b => iequals a b = false ∧ iequals b a = false) →
      row_lookup (set_cols r cols vals) (cols.getD i []) = vals.getD i none := by
  induction cols with
  | nil => intro vals r i h1 _ _; simp at h1
  | cons k ks ih =>
    intro vals r i h1 h2 hdist
    cases vals with
    | nil => simp at h2
    | cons v vs =>
      rw [set_cols_cons]
      rw [List.pairwise_cons] at hdist
      cases i with
      | zero =>
        simp only [List.getD_cons_zero]
        have hother : ∀ k2 ∈ ks, iequals k k2 = false := fun k2 hmem =>
          (hdist.1 k2 hmem).1
        rw [set_cols_lookup_other ks vs _ k hother]
        cases v with
        | some x => exact row_lookup_set_self r k x k (iequals_self k)
        | none => exact row_lookup_blank_self r k k (iequals_self k)
      | succ i =>
        simp only [List.getD_cons_succ]
        exact ih vs _ i (by simpa using h1) (by simpa using h2) hdist.2

/-- `blank_cols` leaves every column that is not one of the blanked
columns unchanged. -/
theorem blank_cols_lookup_other (cols : List (List Char)) :
    ∀ (r : RowA) (nm : List Char),
      (∀ k ∈ cols, iequals nm k = false) →
      row_lookup (blank_cols r cols) nm = row_lookup r nm := by
  induction cols with
  | nil => intro r nm _; simp [blank_cols]
  | cons k ks ih =>
    intro r nm hk
    have h1 := hk k (by simp)
    have h2 : ∀ k2 ∈ ks, iequals nm k2 = false := fun k2 hmem => hk k2 (by simp [hmem])
    simp only [blank_cols, List.foldl_cons]
    have := ih (row_blank r k) nm h2
    simp only [blank_cols] at this
    rw [this, row_lookup_blank_other r k nm h1]

/-- `blank_cols` blanks every listed column. -/
theorem blank_cols_lookup_self (cols : List (List Char)) :
    ∀ (r : RowA) (k : List Char), k ∈ cols →
      row_lookup (blank_cols r cols) k = none := by
  induction cols with
  | nil => intro r k h; simp at h
  | cons k0 ks ih =>
    intro r k hmem
    simp only [blank_cols, List.foldl_cons]
    rcases List.mem_cons.1 hmem with h | h
    · subst h
      have hstart : row_lookup (row_blank r k) k = none :=
        row_lookup_blank_self r k k (iequals_self k)
      clear hmem ih
      generalize row_blank r k = r0 at hstart
      induction ks generalizing r0 with
      | nil => simpa [blank_cols] using hstart
      | cons k1 ks1 ih1 =>
        simp only [List.foldl_cons]
        exact ih1 (row_blank r0 k1) (row_lookup_blank_none r0 k1 k hstart)
    · exact ih (row_blank r k0) k h

/-- Case-equal names select the same bindings on the right of
`iequals`. -/
theorem iequals_congr_right (z n1 n2 : List Char) (h : iequals n1 n2 = true) :
    iequals z n1 = iequals z n2 := by
  rw [iequals_eq_true_iff] at h
  simp only [iequals, h]

/-- `block_rows` after a name-preserving map. -/
theorem block_rows_map (f : simple_category → simple_category)
    (hf : ∀ c, (f c).s_name = c.s_name) (l : List simple_category) (nm : List Char) :
    block_rows (l.map f) nm =
      (match l.find? (fun c => iequals c.s_name nm) with
        | some c => (f c).s_rows
        | none => []) := by
  induction l with
  | nil => simp [block_rows]
  | cons c cs ih =>
    simp only [List.map_cons, block_rows, List.find?_cons, hf c]
    by_cases hc : iequals c.s_name nm
    · simp [hc]
    · have hc2 : iequals c.s_name nm = false := by
        revert hc
        cases iequals c.s_name nm <;> simp
      simp only [hc2, Bool.false_eq_true, if_false]
      simpa [block_rows] using ih

/-- The relevant update groups agree on case-equal child category
names. -/
theorem update_rel_congr (groups : List link_group) (pcat col : List Char)
    (n1 n2 : List Char) (h : iequals n1 n2 = true) :
    update_rel groups pcat col n1 = update_rel groups pcat col n2 := by
  simp only [update_rel]
  refine List.filter_congr ?_
  intro G _
  rw [iequals_comm n1 n2] at h
  simp only [iequals_congr_right G.m_child_category n2 n1 h]

/-- The relevant erase groups agree on case-equal child category
names. -/
theorem erase_rel_congr (groups : List link_group) (pcat : List Char)
    (n1 n2 : List Char) (h : iequals n1 n2 = true) :
    erase_rel groups pcat n1 = erase_rel groups pcat n2 := by
  simp only [erase_rel]
  refine List.filter_congr ?_
  intro G _
  rw [iequals_comm n1 n2] at h
  simp only [iequals_congr_right G.m_child_category n2 n1 h]

/-- With exactly one relevant link group, `update_fate` is the spec's
single-group action. -/
theorem update_fate_single (groups : List link_group) (b : List simple_category)
    (pcat : List Char) (p : RowA) (col newVal : List Char) (childName : List Char)
    (G : link_group) (ch : RowA)
    (hrel : update_rel groups pcat col childName = [G]) :
    update_fate groups b pcat p col newVal childName ch =
      update_step groups b G (old_tuple G p) (new_tuple G p col newVal) ch := by
  simp [update_fate, hrel]

/-- Claim C1: after `set_cell`/`update_value` rewrites a parent-key
cell through the configured link group `G`, every child row matching
the old parent tuple that has another surviving parent link is split
(the pre-image row stays unchanged and a deep copy with exactly the
`G.child_keys` columns rewritten to the new tuple is inserted
immediately after it), every matching child without another surviving
link is rewritten in place, non-matching children are untouched, the
rewritten copy carries the new tuple on the `G.child_keys` columns
and the old values everywhere else, the child category's row list is
exactly the concatenation of those per-row fates, and the parent
row's cell is rewritten after the children. -/
theorem update_value_cascade (groups : List link_group) (b : List simple_category)
    (pcat : List Char) (p : RowA) (col newVal : List Char) (G : link_group)
    (childName : List Char) (ch : RowA)
    (hrel : update_rel groups pcat col childName = [G])
    (hdist : G.m_child_keys.Pairwise (fun a b => iequals a b = false ∧ iequals b a = false)) :
    (child_matches G (old_tuple G p) ch = true →
      has_other_link groups b G ch = true →
      update_fate groups b pcat p col newVal childName ch =
        [ch, set_cols ch G.m_child_keys (new_tuple G p col newVal)]) ∧
    (child_matches G (old_tuple G p) ch = true →
      has_other_link groups b G ch = false →
      update_fate groups b pcat p col newVal childName ch =
        [set_cols ch G.m_child_keys (new_tuple G p col newVal)]) ∧
    (child_matches G (old_tuple G p) ch = false →
      update_fate groups b pcat p col newVal childName ch = [ch]) ∧
    (∀ i, i < G.m_child_keys.length → i < (new_tuple G p col newVal).length →
      row_lookup (set_cols ch G.m_child_keys (new_tuple G p col newVal))
          (G.m_child_keys.getD i []) =
        (new_tuple G p col newVal).getD i none) ∧
    (∀ nm, (∀ k ∈ G.m_child_keys, iequals nm k = false) →
      row_lookup (set_cols ch G.m_child_keys (new_tuple G p col newVal)) nm =
        row_lookup ch nm) ∧
    (iequals childName pcat = false →
      block_rows (update_value_model groups b pcat p col newVal) childName =
        (block_rows b childName).flatMap
          (update_fate groups b pcat p col newVal childName)) ∧
    (update_rel groups pcat col pcat = [] →
      block_rows (update_value_model groups b pcat p col newVal) pcat =
        replace_row (block_rows b pcat) p (row_set p col newVal)) := by
  refine ⟨?_, ?_, ?_, ?_, ?_, ?_, ?_⟩
  · intro hm ho
    rw [update_fate_single groups b pcat p col newVal childName G ch hrel]
    simp [update_step, hm, ho]
  · intro hm ho
    rw [update_fate_single groups b pcat p col newVal childName G ch hrel]
    simp [update_step, hm, ho]
  · intro hm
    rw [update_fate_single groups b pcat p col newVal childName G ch hrel]
    simp [update_step, hm]
  · intro i h1 h2
    exact set_cols_lookup_hit G.m_child_keys (new_tuple G p col newVal) ch i h1 h2 hdist
  · intro nm hnm
    exact set_cols_lookup_other G.m_child_keys (new_tuple G p col newVal) ch nm hnm
  · intro hne
    simp only [update_value_model]
    rw [List.map_map]
    rw [block_rows_map _ (fun c => by simp only [Function.comp]; split <;> rfl)]
    cases hfind : b.find? (fun c => iequals c.s_name childName) with
    | none =>
      have : block_rows b childName = [] := by
        simp [block_rows, hfind]
      rw [this]
      rfl
    | some c =>
      simp only [Function.comp]
      have hname := List.find?_some hfind
      have hnp : iequals c.s_name pcat = false := by
        by_contra hcon
        simp only [Bool.not_eq_false] at hcon
        have : iequals childName pcat = true := by
          rw [iequals_comm] at hname
          exact iequals_trans childName c.s_name pcat hname hcon
        rw [this] at hne
        cases hne
      have hbr : block_rows b childName = c.s_rows := by
        simp [block_rows, hfind]
      rw [hbr]
      simp only [hnp, Bool.false_eq_true, if_false]
      have hfate : update_fate groups b pcat p col newVal c.s_name =
          update_fate groups b pcat p col newVal childName := by
        funext ch2
        simp only [update_fate, update_rel_congr groups pcat col c.s_name childName hname]
      rw [hfate]
  · intro hself
    simp only [update_value_model]
    rw [List.map_map]
    rw [block_rows_map _ (fun c => by simp only [Function.comp]; split <;> rfl)]
    cases hfind : b.find? (fun c => iequals c.s_name pcat) with
    | none =>
      have : block_rows b pcat = [] := by
        simp [block_rows, hfind]
      rw [this]
      rfl
    | some c =>
      simp only [Function.comp]
      have hname := List.find?_some hfind
      have hbr : block_rows b pcat = c.s_rows := by
        simp [block_rows, hfind]
      rw [hbr]
      simp only [hname, if_true]
      have hfate : ∀ ch2, update_fate groups b pcat p col newVal c.s_name ch2 = [ch2] := by
        intro ch2
        simp only [update_fate, update_rel_congr groups pcat col c.s_name pcat hname, hself,
          List.foldl_nil]
      have : c.s_rows.flatMap (update_fate groups b pcat p col newVal c.s_name) = c.s_rows := by
        rw [show (update_fate groups b pcat p col newVal c.s_name) = (fun ch2 => [ch2]) from
          funext hfate]
        simp
      rw [this]

/-- With exactly one relevant link group, `erase_fate` is the spec's
single-group action. -/
theorem erase_fate_single (groups : List link_group) (b2 : List simple_category)
    (pcat : List Char) (p : RowA) (childName : List Char) (G : link_group) (ch : RowA)
    (hrel : erase_rel groups pcat childName = [G]) :
    erase_fate groups b2 pcat p childName ch =
      erase_step groups b2 G (old_tuple G p) (some ch) := by
  simp [erase_fate, hrel]

/-- Removing the parent row changes no other category, and only that
row of the parent category. -/
theorem block_rows_parent_removed (b : List simple_category) (pcat : List Char)
    (p : RowA) (nm : List Char) (h : iequals nm pcat = false) :
    block_rows (parent_removed b pcat p) nm = block_rows b nm := by
  simp only [parent_removed]
  rw [block_rows_map _ (fun c => by split <;> rfl)]
  cases hfind : b.find? (fun c => iequals c.s_name nm) with
  | none => simp [block_rows, hfind]
  | some c =>
    have hname := List.find?_some hfind
    have hnp : iequals c.s_name pcat = false := by
      by_contra hcon
      simp only [Bool.not_eq_false] at hcon
      have : iequals nm pcat = true := by
        rw [iequals_comm] at hname
        exact iequals_trans nm c.s_name pcat hname hcon
      rw [this] at h
      cases h
    simp [block_rows, hfind, hnp]

/-- Claim C2: after a parent row is erased through the configured
link group `G`, a child row whose full join tuple matched the erased
key is itself erased exactly when it has no other surviving parent
link group that still resolves to a live parent row (checked against
the block with the parent row removed); otherwise only the columns of
the removed link are blanked and every other column keeps its value;
non-matching children are untouched, and the child category's row
list is exactly the per-row fates of the old rows. -/
theorem erase_cascade (groups : List link_group) (b : List simple_category)
    (pcat : List Char) (p : RowA) (G : link_group) (childName : List Char) (ch : RowA)
    (hrel : erase_rel groups pcat childName = [G]) :
    (child_matches G (old_tuple G p) ch = true →
      has_other_link groups (parent_removed b pcat p) G ch = false →
      erase_fate groups (parent_removed b pcat p) pcat p childName ch = none) ∧
    (child_matches G (old_tuple G p) ch = true →
      has_other_link groups (parent_removed b pcat p) G ch = true →
      erase_fate groups (parent_removed b pcat p) pcat p childName ch =
        some (blank_cols ch G.m_child_keys)) ∧
    (child_matches G (old_tuple G p) ch = false →
      erase_fate groups (parent_removed b pcat p) pcat p childName ch = some ch) ∧
    (∀ k ∈ G.m_child_keys, row_lookup (blank_cols ch G.m_child_keys) k = none) ∧
    (∀ nm, (∀ k ∈ G.m_child_keys, iequals nm k = false) →
      row_lookup (blank_cols ch G.m_child_keys) nm = row_lookup ch nm) ∧
    (iequals childName pcat = false →
      block_rows (erase_row_model groups b pcat p) childName =
        (block_rows b childName).filterMap
          (erase_fate groups (parent_removed b pcat p) pcat p childName)) ∧
    (erase_rel groups pcat pcat = [] →
      block_rows (erase_row_model groups b pcat p) pcat =
        erase_first (block_rows b pcat) p) := by
  refine ⟨?_, ?_, ?_, ?_, ?_, ?_, ?_⟩
  · intro hm ho
    rw [erase_fate_single groups _ pcat p childName G ch hrel]
    simp [erase_step, hm, ho]
  · intro hm ho
    rw [erase_fate_single groups _ pcat p childName G ch hrel]
    simp [erase_step, hm, ho]
  · intro hm
    rw [erase_fate_single groups _ pcat p childName G ch hrel]
    simp [erase_step, hm]
  · intro k hk
    exact blank_cols_lookup_self G.m_child_keys ch k hk
  · intro nm hnm
    exact blank_cols_lookup_other G.m_child_keys ch nm hnm
  · intro hne
    simp only [erase_row_model]
    rw [block_rows_map (fun c =>
      { c with s_rows :=
          c.s_rows.filterMap (erase_fate groups (parent_removed b pcat p) pcat p c.s_name) })
      (fun c => rfl)]
    have hcomp : ((fun c : simple_category => iequals c.s_name childName) ∘
        (fun c : simple_category =>
          if iequals c.s_name pcat = true then
            { c with s_rows := erase_first c.s_rows p } else c)) =
        (fun c : simple_category => iequals c.s_name childName) := by
      funext c
      simp only [Function.comp]
      split <;> rfl
    have hfindpr : (parent_removed b pcat p).find? (fun c => iequals c.s_name childName) =
        Option.map (fun c : simple_category =>
            if iequals c.s_name pcat = true then
              { c with s_rows := erase_first c.s_rows p } else c)
          (b.find? (fun c => iequals c.s_name childName)) := by
      simp only [parent_removed]
      rw [List.find?_map, hcomp]
    rw [hfindpr]
    cases hfind : b.find? (fun c => iequals c.s_name childName) with
    | none =>
      have : block_rows b childName = [] := by simp [block_rows, hfind]
      rw [this]
      rfl
    | some c =>
      have hname := List.find?_some hfind
      have hnp : iequals c.s_name pcat = false := by
        by_contra hcon
        simp only [Bool.not_eq_false] at hcon
        have : iequals childName pcat = true := by
          rw [iequals_comm] at hname
          exact iequals_trans childName c.s_name pcat hname hcon
        rw [this] at hne
        cases hne
      have hbr : block_rows b childName = c.s_rows := by simp [block_rows, hfind]
      rw [hbr]
      simp only [Option.map_some', hnp, Bool.false_eq_true, if_false]
      have hfate : erase_fate groups (parent_removed b pcat p) pcat p c.s_name =
          erase_fate groups (parent_removed b pcat p) pcat p childName := by
        funext ch2
        simp only [erase_fate, erase_rel_congr groups pcat c.s_name childName hname]
      rw [hfate]
  · intro hself
    simp only [erase_row_model]
    rw [block_rows_map (fun c =>
      { c with s_rows :=
          c.s_rows.filterMap (erase_fate groups (parent_removed b pcat p) pcat p c.s_name) })
      (fun c => rfl)]
    have hcomp : ((fun c : simple_category => iequals c.s_name pcat) ∘
        (fun c : simple_category =>
          if iequals c.s_name pcat = true then
            { c with s_rows := erase_first c.s_rows p } else c)) =
        (fun c : simple_category => iequals c.s_name pcat) := by
      funext c
      simp only [Function.comp]
      split <;> rfl
    have hfindpr : (parent_removed b pcat p).find? (fun c => iequals c.s_name pcat) =
        Option.map (fun c : simple_category =>
            if iequals c.s_name pcat = true then
              { c with s_rows := erase_first c.s_rows p } else c)
          (b.find? (fun c => iequals c.s_name pcat)) := by
      simp only [parent_removed]
      rw [List.find?_map, hcomp]
    rw [hfindpr]
    cases hfind : b.find? (fun c => iequals c.s_name pcat) with
    | none =>
      have : block_rows b pcat = [] := by simp [block_rows, hfind]
      rw [this]
      rfl
    | some c =>
      have hname := List.find?_some hfind
      have hbr : block_rows b pcat = c.s_rows := by simp [block_rows, hfind]
      rw [hbr]
      simp only [Option.map_some', hname, if_true]
      have hfate : ∀ ch2, erase_fate groups (parent_removed b pcat p) pcat p c.s_name ch2 =
          some ch2 := by
        intro ch2
        simp only [erase_fate, erase_rel_congr groups pcat c.s_name pcat hname, hself,
          List.foldl_nil]
      have : (erase_first c.s_rows p).filterMap
          (erase_fate groups (parent_removed b pcat p) pcat p c.s_name) =
          erase_first c.s_rows p := by
        rw [show (erase_fate groups (parent_removed b pcat p) pcat p c.s_name) =
          (fun ch2 => some ch2) from funext hfate]
        simp
      rw [this]

/-- Witness for C3: emplacing `{id: aap}` into a category already
holding a row with `UChar` key `AAP` is rejected as a duplicate key,
the row list unchanged. -/
theorem category_emplace_correct_witness :
    w_cat.m_cat_validator = some w_cv ∧ w_cv.m_keys ≠ [] ∧
    emplace_items w_cat w_items = (w_cat, Except.ok w_row) ∧
    category.emplace w_cat w_items = (w_cat, some "duplicate key") :=
  ⟨rfl, by decide, rfl,
    (category_emplace_correct w_cat w_cv w_items w_cat w_row rfl (by decide) rfl).1
      (by decide)⟩

/-- Counterexample to C4 as stated: a failing `emplace` can leave a
new column in the category's column table (its first item appends the
column `known`, its second item fails validation). -/
theorem category_emplace_fail_changes_columns :
    (category.emplace w_strict_cat w_bad_items).2.isSome = true ∧
    (category.emplace w_strict_cat w_bad_items).1.m_columns ≠ w_strict_cat.m_columns := by
  decide

/-- Witness for C4 (amended) at the same failing input: the rows are
untouched and the column table is only ever extended. -/
theorem category_emplace_fail_state_witness :
    (category.emplace w_strict_cat w_bad_items).2.isSome = true ∧
    ((category.emplace w_strict_cat w_bad_items).1.m_rows = w_strict_cat.m_rows ∧
      (category.emplace w_strict_cat w_bad_items).1.m_name = w_strict_cat.m_name ∧
      ∃ suf, (category.emplace w_strict_cat w_bad_items).1.m_columns =
        w_strict_cat.m_columns ++ suf) :=
  ⟨by decide, category_emplace_fail_state w_strict_cat w_bad_items (by decide)⟩

/-- Witness for C1: rewriting `p1.id` from `1` to `2` splits the
child that is also joined to the surviving parent `p2`: the pre-image
row stays and the clone follows it with its `a` column rewritten. -/
theorem update_value_cascade_witness :
    update_rel w_groups (sl "p1") (sl "id") (sl "ch") = [w_G1] ∧
    update_fate w_groups w_block (sl "p1") w_prow (sl "id") (sl "2") (sl "ch") w_chrow =
      [w_chrow, set_cols w_chrow w_G1.m_child_keys (new_tuple w_G1 w_prow (sl "id") (sl "2"))] :=
  ⟨by decide,
    (update_value_cascade w_groups w_block (sl "p1") w_prow (sl "id") (sl "2") w_G1
        (sl "ch") w_chrow (by decide) (by decide)).1 (by decide) (by decide)⟩

/-- Witness for C2: erasing the `p1` row blanks only the removed
link's column of the child that still resolves through `p2`. -/
theorem erase_cascade_witness :
    erase_rel w_groups (sl "p1") (sl "ch") = [w_G1] ∧
    erase_fate w_groups (parent_removed w_block2 (sl "p1") w_prow) (sl "p1") w_prow
        (sl "ch") w_chrow = some (blank_cols w_chrow w_G1.m_child_keys) :=
  ⟨by decide,
    (erase_cascade w_groups w_block2 (sl "p1") w_prow w_G1 (sl "ch") w_chrow
        (by decide)).2.1 (by decide) (by decide)⟩

/-- The anchored alternative of the reserved-word expression: a full
match of `pat` at the front with at least one further character. -/
theorem matchAt_zero_iff (s pat : List Char) :
    (matchAtFold s 0 pat = true ∧ pat.length < s.length) ↔ starts_reserved s pat := by
  constructor
  · rintro ⟨hm, hlen⟩
    simp only [matchAtFold, List.drop_zero, decide_eq_true_eq] at hm
    refine ⟨(s.map toLowerAscii).drop pat.length, ?_, ?_⟩
    · conv_lhs => rw [← List.take_append_drop pat.length (s.map toLowerAscii)]
      rw [hm]
    · intro hcon
      have hl := congrArg List.length hcon
      simp only [List.length_drop, List.length_map, List.length_nil] at hl
      omega
  · rintro ⟨post, heq, hpost⟩
    constructor
    · simp only [matchAtFold, List.drop_zero, heq, decide_eq_true_eq]
      exact List.take_left pat post
    · have hl := congrArg List.length heq
      simp only [List.length_map, List.length_append] at hl
      have hp : 0 < post.length := List.length_pos.2 hpost
      omega

/-- The floating alternative of the reserved-word expression, forward
direction: a match of `pat` at position `i` with at least one further
character shows containment. -/
theorem matchAt_any_iff (s pat : List Char) (i : Nat) :
    (i < s.length ∧ matchAtFold s i pat = true ∧ i + pat.length < s.length) →
      contains_reserved s pat := by
  rintro ⟨hi, hm, hlen⟩
  simp only [matchAtFold, decide_eq_true_eq] at hm
  refine ⟨(s.map toLowerAscii).take i, (s.map toLowerAscii).drop (i + pat.length), ?_, ?_⟩
  · rw [List.append_assoc]
    conv_lhs => rw [← List.take_append_drop i (s.map toLowerAscii)]
    congr 1
    conv_lhs => rw [← List.take_append_drop pat.length ((s.map toLowerAscii).drop i)]
    rw [hm, List.drop_drop]
  · intro hcon
    have hl := congrArg List.length hcon
    simp only [List.length_drop, List.length_map, List.length_nil] at hl
    omega

/-- The floating alternative, backward direction: a contained pattern
yields a matching position. -/
theorem contains_reserved_to_matchAt (s pat : List Char) (hpat : pat ≠ []) :
    contains_reserved s pat →
      ∃ i, i < s.length ∧ matchAtFold s i pat = true ∧ i + pat.length < s.length := by
  rintro ⟨pre, post, heq, hpost⟩
  have hlens := congrArg List.length heq
  simp only [List.length_map, List.length_append] at hlens
  have hp : 0 < post.length := List.length_pos.2 hpost
  have hq : 0 < pat.length := List.length_pos.2 hpat
  refine ⟨pre.length, by omega, ?_, by omega⟩
  simp only [matchAtFold, heq, decide_eq_true_eq]
  rw [List.append_assoc, List.drop_left pre (pat ++ post)]
  exact List.take_left pat post

/-- The reserved-word expression matches exactly the claim-side
decompositions. -/
theorem reservedRx_iff (s : List Char) :
    reservedRx s = true ↔
      (starts_reserved s (String.toList "data_") ∨ starts_reserved s (String.toList "save_") ∨
       contains_reserved s (String.toList "loop_") ∨ contains_reserved s (String.toList "stop_") ∨
       contains_reserved s (String.toList "global_")) := by
  simp only [reservedRx, decide_eq_true_eq, List.any_eq_true, List.mem_range]
  constructor
  · rintro (⟨hm, hl⟩ | ⟨hm, hl⟩ | ⟨i, hi, (⟨hm, hl⟩ | ⟨hm, hl⟩ | ⟨hm, hl⟩)⟩)
    · exact Or.inl ((matchAt_zero_iff s (String.toList "data_")).1 ⟨hm, hl⟩)
    · exact Or.inr (Or.inl ((matchAt_zero_iff s (String.toList "save_")).1 ⟨hm, hl⟩))
    · exact Or.inr (Or.inr (Or.inl (matchAt_any_iff s (String.toList "loop_") i ⟨hi, hm, hl⟩)))
    · exact Or.inr (Or.inr (Or.inr (Or.inl
        (matchAt_any_iff s (String.toList "stop_") i ⟨hi, hm, hl⟩))))
    · exact Or.inr (Or.inr (Or.inr (Or.inr
        (matchAt_any_iff s (String.toList "global_") i ⟨hi, hm, hl⟩))))
  · rintro (h | h | h | h | h)
    · exact Or.inl ((matchAt_zero_iff s (String.toList "data_")).2 h)
    · exact Or.inr (Or.inl ((matchAt_zero_iff s (String.toList "save_")).2 h))
    · obtain ⟨i, hi, hm, hl⟩ := contains_reserved_to_matchAt s _ (by decide) h
      exact Or.inr (Or.inr ⟨i, hi, Or.inl ⟨hm, hl⟩⟩)
    · obtain ⟨i, hi, hm, hl⟩ := contains_reserved_to_matchAt s _ (by decide) h
      exact Or.inr (Or.inr ⟨i, hi, Or.inr (Or.inl ⟨hm, hl⟩)⟩)
    · obtain ⟨i, hi, hm, hl⟩ := contains_reserved_to_matchAt s _ (by decide) h
      exact Or.inr (Or.inr ⟨i, hi, Or.inr (Or.inr ⟨hm, hl⟩)⟩)

/-- `is_unquoted_string` agrees with the claim-side reading (amended:
the reserved prefixes and substrings must be followed by at least one
further character). -/
theorem is_unquoted_string_iff (s : List Char) :
    is_unquoted_string s = true ↔ unquoted_claim s := by
  cases s with
  | nil =>
    simp only [is_unquoted_string, unquoted_claim]
    constructor
    · intro h; cases h
    · rintro ⟨⟨c0, cs, hcon, _⟩, _⟩
      cases hcon
  | cons c0 cs =>
    simp only [is_unquoted_string, Bool.and_eq_true, Bool.not_eq_true', unquoted_claim]
    constructor
    · rintro ⟨⟨h1, h2⟩, h3⟩
      have hnot : ¬ (starts_reserved (c0 :: cs) (String.toList "data_") ∨
          starts_reserved (c0 :: cs) (String.toList "save_") ∨
          contains_reserved (c0 :: cs) (String.toList "loop_") ∨
          contains_reserved (c0 :: cs) (String.toList "stop_") ∨
          contains_reserved (c0 :: cs) (String.toList "global_")) := by
        rw [← reservedRx_iff, h3]
        simp
      push_neg at hnot
      refine ⟨⟨c0, cs, rfl, h1, ?_⟩, hnot.1, hnot.2.1, hnot.2.2.1, hnot.2.2.2.1, hnot.2.2.2.2⟩
      intro c hc
      have := List.all_eq_true.1 h2 c hc
      exact this
    · rintro ⟨⟨c0', cs', hcon, h1, h2⟩, hd, hs, hl, hst, hg⟩
      obtain ⟨rfl, rfl⟩ : c0' = c0 ∧ cs' = cs := by
        cases hcon
        exact ⟨rfl, rfl⟩
      refine ⟨⟨h1, ?_⟩, ?_⟩
      · rw [List.all_eq_true]
        intro c hc
        exact h2 c hc
      · by_contra hcon2
        simp only [Bool.not_eq_false] at hcon2
        rcases (reservedRx_iff _).1 hcon2 with h | h | h | h | h
        · exact hd h
        · exact hs h
        · exact hl h
        · exact hst h
        · exact hg h

/-- Counterexample to C5 as stated: the value `data_` begins with the
reserved prefix `data_`, yet `is_unquoted_string` accepts it (the
reserved-word expression demands at least one character after the
underscore), so it is emitted unquoted. -/
theorem is_unquoted_string_data_prefix :
    is_unquoted_string (sl "data_") = true ∧
    (sl "data_").take 5 = String.toList "data_" := by
  decide

/-- Claim C5 (amended): a value is emitted unquoted exactly when it
satisfies the CIF unquoted-string rule and neither starts with
`data_`/`save_` followed by at least one character nor contains
`loop_`/`stop_`/`global_` followed by at least one character; the
values `stop_the_crap`, `and stop_ this too` and `data_dinges` are
written quoted, `boo.data_.whatever` unquoted, and all four survive
write followed by tokenize unchanged. -/
theorem is_unquoted_string_correct :
    (∀ s, is_unquoted_string s = true ↔ unquoted_claim s) ∧
    is_unquoted_string (sl "stop_the_crap") = false ∧
    is_unquoted_string (sl "and stop_ this too") = false ∧
    is_unquoted_string (sl "data_dinges") = false ∧
    is_unquoted_string (sl "boo.data_.whatever") = true ∧
    write_value (sl "stop_the_crap") ≠ sl "stop_the_crap" ∧
    write_value (sl "and stop_ this too") ≠ sl "and stop_ this too" ∧
    write_value (sl "data_dinges") ≠ sl "data_dinges" ∧
    write_value (sl "boo.data_.whatever") = sl "boo.data_.whatever" ∧
    (get_next_token (write_value (sl "stop_the_crap") ++ [' '])).map
        (fun r => (r.token, r.text)) = Except.ok (CIFToken.Value, sl "stop_the_crap") ∧
    (get_next_token (write_value (sl "and stop_ this too") ++ [' '])).map
        (fun r => (r.token, r.text)) = Except.ok (CIFToken.Value, sl "and stop_ this too") ∧
    (get_next_token (write_value (sl "data_dinges") ++ [' '])).map
        (fun r => (r.token, r.text)) = Except.ok (CIFToken.Value, sl "data_dinges") ∧
    (get_next_token (write_value (sl "boo.data_.whatever") ++ [' '])).map
        (fun r => (r.token, r.text)) = Except.ok (CIFToken.Value, sl "boo.data_.whatever") :=
  ⟨is_unquoted_string_iff, by decide, by decide, by decide, by decide, by decide, by decide,
    by decide, by decide, rfl, rfl, rfl, rfl⟩

/-- Witness for C5 at a concrete value. -/
theorem is_unquoted_string_correct_witness :
    is_unquoted_string (sl "aap") = true ↔ unquoted_claim (sl "aap") :=
  is_unquoted_string_correct.1 (sl "aap")

/-- `normalize_crlf` passes a CR-free prefix through unchanged. -/
theorem normalize_crlf_append (l1 l2 : List Char) (h : ∀ c ∈ l1, c.toNat ≠ 13) :
    normalize_crlf (l1 ++ l2) = l1 ++ normalize_crlf l2 := by
  induction l1 with
  | nil => simp
  | cons c t ih =>
    have hc : c.toNat ≠ 13 := h c (by simp)
    have ht : ∀ x ∈ t, x.toNat ≠ 13 := fun x hx => h x (by simp [hx])
    cases htl : t ++ l2 with
    | nil =>
      obtain ⟨rfl, rfl⟩ := List.append_eq_nil.1 htl
      simp [normalize_crlf, hc]
    | cons d r2 =>
      have : (c :: t) ++ l2 = c :: d :: r2 := by rw [List.cons_append, htl]
      rw [this]
      simp only [normalize_crlf, hc, if_false]
      rw [← htl, ih ht, List.cons_append]

/-- The quoted-string run of the tokenizer: starting inside a quoted
string whose remaining content is `w` (no embedded quote followed by
an `is_white` character, every embedded quote followed by a
printable), the scanner consumes `w`, the closing quote and the
`is_white` character `c`, and yields a `String` value holding the
accumulated text without its surrounding quotes. -/
theorem scan_quoted_run (q : Char) (hqw : is_white q = false) :
    ∀ (w : List Char) (fuel : Nat) (st : ScanState) (acc : List Char) (bol : Bool)
      (start : ScanState) (c : Char) (rest : List Char),
      (st = ScanState.QuotedString ∨ st = ScanState.QuotedStringQuote) →
      (st = ScanState.QuotedStringQuote → ∀ d t, w = d :: t →
        is_white d = false ∧ is_any_print d.toNat = true) →
      quote_safe q w →
      is_white c = true →
      acc ≠ [] →
      w.length + 3 ≤ fuel →
      scan fuel st start q bol acc (w ++ q :: c :: rest) =
        Except.ok ⟨CIFToken.Value, CIFValue.String, ((acc ++ w ++ [q]).drop 1).dropLast,
          c :: rest⟩ := by
  intro w
  induction w with
  | nil =>
    intro fuel st acc bol start c rest hst _ _ hcw hacc hfuel
    obtain ⟨f, rfl⟩ : ∃ f, fuel = f + 2 := ⟨fuel - 2, by omega⟩
    have hlen2 : ¬ (acc ++ [q]).length < 2 := by
      have : 0 < acc.length := List.length_pos.2 hacc
      simp only [List.length_append, List.length_cons, List.length_nil]
      omega
    rcases hst with rfl | rfl
    · show scan (f + 2) ScanState.QuotedString start q bol acc (q :: c :: rest) = _
      simp only [scan, if_pos rfl]
      simp only [scan, hcw, if_true, hlen2, if_false]
      simp
    · show scan (f + 2) ScanState.QuotedStringQuote start q bol acc (q :: c :: rest) = _
      simp only [scan, hqw, Bool.false_eq_true, if_false, if_pos rfl]
      simp only [scan, hcw, if_true, hlen2, if_false]
      simp
  | cons d w' ih =>
    intro fuel st acc bol start c rest hst hhead hsafe hcw hacc hfuel
    obtain ⟨f, rfl⟩ : ∃ f, fuel = f + 1 := ⟨fuel - 1, by omega⟩
    have hfuel2 : w'.length + 3 ≤ f := by
      simp only [List.length_cons] at hfuel
      omega
    have hsafe2 : quote_safe q w' := by
      intro i hi hqi
      have := hsafe (i + 1) (by simp only [List.length_cons]; omega)
      simp only [List.getD_cons_succ] at this
      exact this hqi
    have hhead2 : ∀ d2 t2, w' = d2 :: t2 → d = q →
        is_white d2 = false ∧ is_any_print d2.toNat = true := by
      intro d2 t2 hw2 hdq
      have := hsafe 0 (by simp [hw2]) (by simpa using hdq)
      simpa [hw2] using this
    have hstep : (d :: w') ++ q :: c :: rest = d :: (w' ++ q :: c :: rest) := by simp
    have htext : acc ++ [d] ++ w' ++ [q] = acc ++ (d :: w') ++ [q] := by simp
    rcases hst with rfl | rfl
    · rw [hstep]
      show scan (f + 1) ScanState.QuotedString start q bol acc (d :: (w' ++ q :: c :: rest)) = _
      by_cases hdq : d = q
      · rw [hdq]
        simp only [scan, if_pos rfl]
        rw [ih f ScanState.QuotedStringQuote (acc ++ [q]) bol start c rest (Or.inr rfl)
          (fun _ d2 t2 hw2 => hhead2 d2 t2 hw2 hdq) hsafe2 hcw (by simp) hfuel2]
        rw [show acc ++ [q] ++ w' ++ [q] = acc ++ q :: w' ++ [q] by simp]
        rw [if_true]
      · simp only [scan, hdq, if_false]
        rw [ih f ScanState.QuotedString (acc ++ [d]) bol start c rest (Or.inl rfl)
          (by intro hcon; cases hcon) hsafe2 hcw (by simp) hfuel2]
        rw [htext]
    · rw [hstep]
      obtain ⟨hdw, hdp⟩ := hhead rfl d w' rfl
      show scan (f + 1) ScanState.QuotedStringQuote start q bol acc (d :: (w' ++ q :: c :: rest)) = _
      by_cases hdq : d = q
      · rw [hdq]
        simp only [scan, hqw, Bool.false_eq_true, if_false, if_pos rfl]
        rw [ih f ScanState.QuotedStringQuote (acc ++ [q]) bol start c rest (Or.inr rfl)
          (fun _ d2 t2 hw2 => hhead2 d2 t2 hw2 hdq) hsafe2 hcw (by simp) hfuel2]
        rw [show acc ++ [q] ++ w' ++ [q] = acc ++ q :: w' ++ [q] by simp]
        rw [if_true]
      · simp only [scan, hdw, Bool.false_eq_true, if_false, hdq, hdp, if_true]
        rw [ih f ScanState.QuotedString (acc ++ [d]) bol start c rest (Or.inl rfl)
          (by intro hcon; cases hcon) hsafe2 hcw (by simp) hfuel2]
        rw [htext]

/-- Characters are equal exactly when their code points are. -/
theorem char_eq_iff_toNat (a b : Char) : a = b ↔ a.toNat = b.toNat :=
  ⟨fun h => by rw [h], fun h => Char.ext (UInt32.ext h)⟩

/-- Unfolding of the executable `quote_safeB` into `quote_safe`. -/
theorem quote_safeB_spec (q : Char) (w : List Char) (h : quote_safeB q w = true) :
    quote_safe q w := by
  intro i hi hq
  have hmem : i ∈ List.range w.length := List.mem_range.2 (by omega)
  have := List.all_eq_true.1 h i hmem
  rw [if_pos ⟨hi, hq⟩] at this
  simp only [Bool.and_eq_true, Bool.not_eq_true', decide_eq_true_eq] at this
  exact this

/-- Unfolding of the executable `no_reserved`. -/
theorem no_reserved_spec (w : List Char) (h : no_reserved w = true) :
    ∀ i, i < w.length → w.getD i ' ' = '_' →
      is_reserved_lex (List.map toLowerAscii (w.take (i + 1))) = false := by
  intro i hi hu
  have := List.all_eq_true.1 h i (List.mem_range.2 hi)
  rw [if_pos hu] at this
  simpa using this

/-- Facts about a whitespace character needed to step the scanner's
accepting branches. -/
theorem isspace_char_facts (c : Char) (h : isspace_c c = true) :
    is_non_blank c.toNat = false ∧ is_white c = true ∧ ¬ c = '.' ∧
    ¬ toLowerAscii c = 'e' ∧ ¬ (c = '-' ∨ c = '+') ∧
    ¬ (c = '+' ∨ c = '-' ∨ isdigit_c c = true) ∧
    ¬ (isdigit_c c = true ∨ c = '+' ∨ c = '-') ∧ ¬ c = '_' ∧
    isdigit_c c = false := by
  have hle : c.toNat ≤ 32 := by
    simp only [isspace_c, decide_eq_true_eq] at h
    rcases h with h | h | h | h | h | h
    · subst h; decide
    all_goals omega
  have hlow : toLowerAscii c = c := by
    simp only [toLowerAscii]
    rw [if_neg (by omega)]
  have hdig : isdigit_c c = false := by
    simp only [isdigit_c, decide_eq_false_iff_not, not_and]
    omega
  refine ⟨?_, ?_, ?_, ?_, ?_, ?_, ?_, ?_, hdig⟩
  · simp only [is_non_blank, decide_eq_false_iff_not, not_and]
    intro h1; omega
  · simp [is_white, h]
  · rw [char_eq_iff_toNat]; intro hc
    have : ('.').toNat = 46 := by decide
    omega
  · rw [hlow, char_eq_iff_toNat]; intro hc
    have : ('e').toNat = 101 := by decide
    omega
  · rintro (hc | hc) <;> rw [char_eq_iff_toNat] at hc
    · have : ('-').toNat = 45 := by decide
      omega
    · have : ('+').toNat = 43 := by decide
      omega
  · rintro (hc | hc | hc)
    · rw [char_eq_iff_toNat] at hc
      have : ('+').toNat = 43 := by decide
      omega
    · rw [char_eq_iff_toNat] at hc
      have : ('-').toNat = 45 := by decide
      omega
    · rw [hdig] at hc; cases hc
  · rintro (hc | hc | hc)
    · rw [hdig] at hc; cases hc
    · rw [char_eq_iff_toNat] at hc
      have : ('+').toNat = 43 := by decide
      omega
    · rw [char_eq_iff_toNat] at hc
      have : ('-').toNat = 45 := by decide
      omega
  · rw [char_eq_iff_toNat]; intro hc
    have : ('_').toNat = 95 := by decide
    omega

/-- Facts about a non-blank character needed to step the scanner. -/
theorem nonblank_char_facts (d : Char) (h : is_non_blank d.toNat = true) :
    ¬ d = '\n' ∧ ¬ (d = ' ' ∨ d.toNat = 9) ∧ isspace_c d = false ∧
    d.toNat ≠ 13 := by
  have hgt : 32 < d.toNat ∧ d.toNat ≤ 127 := by
    simp only [is_non_blank, decide_eq_true_eq] at h
    exact ⟨h.1, h.2.1⟩
  have hsp : isspace_c d = false := by
    simp only [isspace_c, decide_eq_false_iff_not, not_or]
    refine ⟨?_, by omega, by omega, by omega, by omega, by omega⟩
    rw [char_eq_iff_toNat]; intro hc
    have : (' ').toNat = 32 := by decide
    omega
  refine ⟨?_, ?_, hsp, by omega⟩
  · rw [char_eq_iff_toNat]; intro hc
    have : ('\n').toNat = 10 := by decide
    omega
  · rintro (hc | hc)
    · rw [char_eq_iff_toNat] at hc
      have : (' ').toNat = 32 := by decide
      omega
    · omega

/-- A non-blank character other than `#` is not `is_white`. -/
theorem nonblank_not_white (d : Char) (h : is_non_blank d.toNat = true)
    (hh : ¬ d = '#') : is_white d = false := by
  have hsp := (nonblank_char_facts d h).2.2.1
  simp only [is_white, hsp, Bool.false_eq_true, false_or, decide_eq_false_iff_not]
  exact hh

/-- A lexeme prefix that is not a reserved word compares unequal,
case-insensitively, to each of the five reserved words. -/
theorem not_reserved_iequals (l : List Char)
    (h : is_reserved_lex (l.map toLowerAscii) = false) :
    iequals l (String.toList "global_") = false ∧
    iequals l (String.toList "stop_") = false ∧
    iequals l (String.toList "loop_") = false ∧
    iequals l (String.toList "data_") = false ∧
    iequals l (String.toList "save_") = false := by
  simp only [is_reserved_lex, decide_eq_false_iff_not, not_or] at h
  obtain ⟨h1, h2, h3, h4, h5⟩ := h
  refine ⟨?_, ?_, ?_, ?_, ?_⟩ <;>
    simp only [iequals, decide_eq_false_iff_not]
  · rw [show (String.toList "global_").map toLowerAscii = String.toList "global_"
      from by decide]
    exact h1
  · rw [show (String.toList "stop_").map toLowerAscii = String.toList "stop_"
      from by decide]
    exact h2
  · rw [show (String.toList "loop_").map toLowerAscii = String.toList "loop_"
      from by decide]
    exact h3
  · rw [show (String.toList "data_").map toLowerAscii = String.toList "data_"
      from by decide]
    exact h4
  · rw [show (String.toList "save_").map toLowerAscii = String.toList "save_"
      from by decide]
    exact h5

/-- The `Value` state of the scanner: with accumulated text `p` and
remaining lexeme `w2` (all non-blank, no reserved word completed at
any underscore), the scanner consumes `w2`, stops at the first
non-non-blank character `c` and emits the completed value with the
`?`/`.` special cases applied to the whole lexeme. -/
theorem scan_value_run :
    ∀ (w2 p : List Char) (fuel : Nat) (q : Char) (bol : Bool) (start : ScanState)
      (c : Char) (rest : List Char),
      (∀ d ∈ w2, is_non_blank d.toNat = true) →
      is_non_blank c.toNat = false →
      (∀ i, i < (p ++ w2).length → (p ++ w2).getD i ' ' = '_' →
        is_reserved_lex (List.map toLowerAscii ((p ++ w2).take (i + 1))) = false) →
      w2.length + 1 ≤ fuel →
      scan fuel .Value start q bol p (w2 ++ c :: rest) =
        Except.ok ⟨CIFToken.Value, valueType (p ++ w2), valueText (p ++ w2), c :: rest⟩ := by
  intro w2
  induction w2 with
  | nil =>
    intro p fuel q bol start c rest _ hcnb _ hfuel
    obtain ⟨f, rfl⟩ : ∃ f, fuel = f + 1 := ⟨fuel - 1, by omega⟩
    have hcu : ¬ c = '_' := by
      intro hc; rw [hc] at hcnb; exact absurd hcnb (by decide)
    show scan (f + 1) ScanState.Value start q bol p ([] ++ c :: rest) = _
    rw [List.nil_append]
    simp only [scan]
    rw [if_neg (fun hcon => hcu hcon.1), if_neg (fun hcon => hcu hcon.1),
        if_neg (fun hcon => hcu hcon.1), if_neg (fun hcon => hcu hcon.1),
        if_neg (fun hcon => hcu hcon.1), if_neg (by simp [hcnb])]
    rw [List.append_nil]
    by_cases hp1 : p = ['.']
    · simp [valueType, valueText, hp1]
    · by_cases hp2 : p = ['?']
      · simp [valueType, valueText, hp1, hp2]
      · simp [valueType, valueText, hp1, hp2]
  | cons d w2' ih =>
    intro p fuel q bol start c rest hnb hcnb hres hfuel
    obtain ⟨f, rfl⟩ : ∃ f, fuel = f + 1 := ⟨fuel - 1, by omega⟩
    simp only [List.length_cons] at hfuel
    have hdnb : is_non_blank d.toNat = true := hnb d (by simp)
    have hassoc : (p ++ [d]) ++ w2' = p ++ d :: w2' := by simp
    have hgetd : (p ++ d :: w2').getD p.length ' ' = d := by
      simp [List.getD, List.getElem?_append_right, List.getElem_append_right]
    have htake : (p ++ d :: w2').take (p.length + 1) = p ++ [d] := by
      rw [List.take_append_eq_append_take]
      simp
    have hR : d = '_' → is_reserved_lex ((p ++ [d]).map toLowerAscii) = false := by
      intro hd
      have := hres p.length (by simp) (by rw [hgetd, hd])
      rwa [htake] at this
    have hcond : ∀ res : List Char, iequals (p ++ [d]) res = false →
        ¬ (d = '_' ∧ iequals (p ++ [d]) res = true) := by
      intro res hie hcon
      rw [hie] at hcon
      cases hcon.2
    have hstep : (d :: w2') ++ c :: rest = d :: (w2' ++ c :: rest) := by simp
    rw [hstep]
    show scan (f + 1) ScanState.Value start q bol p (d :: (w2' ++ c :: rest)) = _
    by_cases hdu : d = '_'
    · obtain ⟨hg, hs, hl, hda, hsa⟩ := not_reserved_iequals _ (hR hdu)
      simp only [scan]
      rw [if_neg (hcond _ hg), if_neg (hcond _ hs), if_neg (hcond _ hl),
          if_neg (hcond _ hda), if_neg (hcond _ hsa), if_pos hdnb]
      rw [ih (p ++ [d]) f q bol start c rest (fun e he => hnb e (by simp [he])) hcnb
          (by rw [hassoc]; exact hres) (by omega)]
      rw [hassoc]
    · simp only [scan]
      rw [if_neg (fun hcon => hdu hcon.1), if_neg (fun hcon => hdu hcon.1),
          if_neg (fun hcon => hdu hcon.1), if_neg (fun hcon => hdu hcon.1),
          if_neg (fun hcon => hdu hcon.1), if_pos hdnb]
      rw [ih (p ++ [d]) f q bol start c rest (fun e he => hnb e (by simp [he])) hcnb
          (by rw [hassoc]; exact hres) (by omega)]
      rw [hassoc]

/-- The `Int` hypothesis phase of the restart ladder: on a non-blank,
`#`-free, reserved-free lexeme `w` followed by whitespace it either
accepts a single sign/digit character as an `Int`, or restarts into
the `Value` state with the input replayed, which completes the lexeme
with text `valueText w`. -/
theorem scan_int_run (w : List Char) (fuel : Nat) (q : Char)
    (c : Char) (rest : List Char)
    (hne : w ≠ [])
    (hnb : ∀ d ∈ w, is_non_blank d.toNat = true)
    (hhash : '#' ∉ w)
    (hres : ∀ i, i < w.length → w.getD i ' ' = '_' →
      is_reserved_lex (List.map toLowerAscii (w.take (i + 1))) = false)
    (hsp : isspace_c c = true)
    (hfuel : w.length + 3 ≤ fuel) :
    ∃ vt, scan fuel .Int .Int q false [] (w ++ c :: rest) =
        Except.ok ⟨CIFToken.Value, vt, valueText w, c :: rest⟩ ∧
      (w = ['?'] → vt = CIFValue.Unknown) ∧
      (w = ['.'] → vt = CIFValue.Inapplicable) := by
  obtain ⟨hcnb, hcw, hcdot, hce, hcsgn, hcfl, hcint, hcu, hcdig⟩ := isspace_char_facts c hsp
  obtain ⟨d, w2, rfl⟩ : ∃ d w2, w = d :: w2 := by
    cases w with
    | nil => exact absurd rfl hne
    | cons d w2 => exact ⟨d, w2, rfl⟩
  obtain ⟨f, rfl⟩ : ∃ f, fuel = f + 1 := ⟨fuel - 1, by omega⟩
  simp only [List.length_cons] at hfuel
  have hdnb : is_non_blank d.toNat = true := hnb d (by simp)
  have hinput : (d :: w2) ++ c :: rest = d :: (w2 ++ c :: rest) := by simp
  by_cases hd1 : isdigit_c d = true ∨ d = '+' ∨ d = '-'
  · have hdq : ¬ d = '?' := by
      rcases hd1 with hd | hd | hd
      · simp only [isdigit_c, decide_eq_true_eq] at hd
        rw [char_eq_iff_toNat]; intro hc
        have : ('?').toNat = 63 := by decide
        omega
      · rw [hd, char_eq_iff_toNat]; decide
      · rw [hd, char_eq_iff_toNat]; decide
    have hddot : ¬ d = '.' := by
      rcases hd1 with hd | hd | hd
      · simp only [isdigit_c, decide_eq_true_eq] at hd
        rw [char_eq_iff_toNat]; intro hc
        have : ('.').toNat = 46 := by decide
        omega
      · rw [hd, char_eq_iff_toNat]; decide
      · rw [hd, char_eq_iff_toNat]; decide
    cases w2 with
    | nil =>
      refine ⟨CIFValue.Int, ?_, ?_, ?_⟩
      · rw [hinput]
        obtain ⟨f2, rfl⟩ : ∃ f2, f = f2 + 1 := ⟨f - 1, by omega⟩
        simp only [scan]
        rw [if_pos hd1, List.nil_append]
        simp only [scan]
        rw [if_pos hcw]
        have : valueText [d] = [d] := by
          simp [valueText, hdq]
        rw [this, List.nil_append]
      · intro hcon
        injection hcon with h1 _
        exact absurd h1 hdq
      · intro hcon
        injection hcon with h1 _
        exact absurd h1 hddot
    | cons e w3 =>
      have henb : is_non_blank e.toNat = true := hnb e (by simp)
      have hew : is_white e = false :=
        nonblank_not_white e henb (fun hc => hhash (hc ▸ (by simp : e ∈ d :: e :: w3)))
      refine ⟨valueType (d :: e :: w3), ?_, ?_, ?_⟩
      · rw [hinput]
        obtain ⟨f2, rfl⟩ : ∃ f2, f = f2 + 1 := ⟨f - 1, by omega⟩
        simp only [scan]
        rw [if_pos hd1]
        rw [show (e :: w3) ++ c :: rest = e :: (w3 ++ c :: rest) from by simp]
        simp only [scan]
        rw [if_neg (by simp [hew]),
          show restartState ScanState.Int = ScanState.Value from rfl]
        rw [show ([] ++ [d]) ++ e :: (w3 ++ c :: rest) =
          (d :: e :: w3) ++ c :: rest from by simp]
        rw [scan_value_run (d :: e :: w3) [] f2 q false .Value c rest hnb hcnb
          (by simpa using hres) (by simp only [List.length_cons] at hfuel ⊢; omega)]
        rw [List.nil_append]
      · intro hcon; rw [hcon]; decide
      · intro hcon; rw [hcon]; decide
  · refine ⟨valueType (d :: w2), ?_, ?_, ?_⟩
    · rw [hinput]
      simp only [scan]
      rw [if_neg hd1, show restartState ScanState.Int = ScanState.Value from rfl]
      rw [show [] ++ d :: (w2 ++ c :: rest) = (d :: w2) ++ c :: rest from by simp]
      rw [scan_value_run (d :: w2) [] f q false .Value c rest hnb hcnb
        (by simpa using hres) (by simp only [List.length_cons]; omega)]
      rw [List.nil_append]
    · intro hcon; rw [hcon]; decide
    · intro hcon; rw [hcon]; decide

/-- A sign or digit is neither `?` nor `.`. -/
theorem signdigit_facts (d : Char) (h : d = '+' ∨ d = '-' ∨ isdigit_c d = true) :
    ¬ d = '?' ∧ ¬ d = '.' := by
  have htn : d.toNat = 43 ∨ d.toNat = 45 ∨ (48 ≤ d.toNat ∧ d.toNat ≤ 57) := by
    rcases h with h | h | h
    · left; rw [h]; decide
    · right; left; rw [h]; decide
    · right; right; simpa [isdigit_c] using h
  have h63 : ('?').toNat = 63 := by decide
  have h46 : ('.').toNat = 46 := by decide
  constructor
  · rw [char_eq_iff_toNat, h63]; omega
  · rw [char_eq_iff_toNat, h46]; omega

/-- `State::Float+5` of the scanner: accepts the float on whitespace,
otherwise restarts into the `Int` hypothesis on the replayed input. -/
theorem scan_float5_run (w p u : List Char) (fuel : Nat) (q : Char) (c : Char)
    (rest : List Char)
    (hne : w ≠ [])
    (hnb : ∀ d ∈ w, is_non_blank d.toNat = true)
    (hhash : '#' ∉ w)
    (hres : ∀ i, i < w.length → w.getD i ' ' = '_' →
      is_reserved_lex (List.map toLowerAscii (w.take (i + 1))) = false)
    (hsp : isspace_c c = true)
    (hnq : ¬ w = ['?']) (hndot : ¬ w = ['.'])
    (hw : w = p ++ u)
    (hfuel : u.length + w.length + 4 ≤ fuel) :
    ∃ vt, scan fuel .Float5 .Float q false p (u ++ c :: rest) =
        Except.ok ⟨CIFToken.Value, vt, valueText w, c :: rest⟩ ∧
      (w = ['?'] → vt = CIFValue.Unknown) ∧
      (w = ['.'] → vt = CIFValue.Inapplicable) := by
  obtain ⟨hcnb, hcw, hcdot, hce, hcsgn, hcfl, hcint, hcu, hcdig⟩ := isspace_char_facts c hsp
  obtain ⟨f, rfl⟩ : ∃ f, fuel = f + 1 := ⟨fuel - 1, by omega⟩
  cases u with
  | nil =>
    refine ⟨CIFValue.Float, ?_, fun hcon => absurd hcon hnq, fun hcon => absurd hcon hndot⟩
    rw [List.nil_append]
    simp only [scan]
    rw [if_pos hcw]
    rw [show p = w from by rw [hw, List.append_nil]]
    rw [show valueText w = w from by simp [valueText, hnq]]
  | cons h u2 =>
    simp only [List.length_cons] at hfuel
    have hhnb : is_non_blank h.toNat = true := hnb h (by rw [hw]; simp)
    have hhw : is_white h = false :=
      nonblank_not_white h hhnb (fun hc => hhash (by rw [hw, ← hc]; simp))
    rw [show (h :: u2) ++ c :: rest = h :: (u2 ++ c :: rest) from by simp]
    simp only [scan]
    rw [if_neg (by simp [hhw]), show restartState ScanState.Float = ScanState.Int from rfl]
    rw [show p ++ h :: (u2 ++ c :: rest) = w ++ c :: rest from by rw [hw]; simp]
    exact scan_int_run w f q c rest hne hnb hhash hres hsp (by omega)

/-- `State::Float+4` of the scanner: a digit moves to `Float+5`,
anything else restarts into the `Int` hypothesis. -/
theorem scan_float4_run (w p u : List Char) (fuel : Nat) (q : Char) (c : Char)
    (rest : List Char)
    (hne : w ≠ [])
    (hnb : ∀ d ∈ w, is_non_blank d.toNat = true)
    (hhash : '#' ∉ w)
    (hres : ∀ i, i < w.length → w.getD i ' ' = '_' →
      is_reserved_lex (List.map toLowerAscii (w.take (i + 1))) = false)
    (hsp : isspace_c c = true)
    (hnq : ¬ w = ['?']) (hndot : ¬ w = ['.'])
    (hw : w = p ++ u)
    (hfuel : u.length + w.length + 5 ≤ fuel) :
    ∃ vt, scan fuel .Float4 .Float q false p (u ++ c :: rest) =
        Except.ok ⟨CIFToken.Value, vt, valueText w, c :: rest⟩ ∧
      (w = ['?'] → vt = CIFValue.Unknown) ∧
      (w = ['.'] → vt = CIFValue.Inapplicable) := by
  obtain ⟨hcnb, hcw, hcdot, hce, hcsgn, hcfl, hcint, hcu, hcdig⟩ := isspace_char_facts c hsp
  obtain ⟨f, rfl⟩ : ∃ f, fuel = f + 1 := ⟨fuel - 1, by omega⟩
  cases u with
  | nil =>
    rw [List.nil_append]
    simp only [scan]
    rw [if_neg (by simp [hcdig]), show restartState ScanState.Float = ScanState.Int from rfl]
    rw [show p ++ c :: rest = w ++ c :: rest from by rw [hw, List.append_nil]]
    exact scan_int_run w f q c rest hne hnb hhash hres hsp (by omega)
  | cons h u2 =>
    simp only [List.length_cons] at hfuel
    rw [show (h :: u2) ++ c :: rest = h :: (u2 ++ c :: rest) from by simp]
    by_cases hdig : isdigit_c h = true
    · simp only [scan]
      rw [if_pos hdig]
      exact scan_float5_run w (p ++ [h]) u2 f q c rest hne hnb hhash hres hsp hnq hndot
        (by rw [hw]; simp) (by omega)
    · have hhnb : is_non_blank h.toNat = true := hnb h (by rw [hw]; simp)
      simp only [scan]
      rw [if_neg (by simp [hdig]), show restartState ScanState.Float = ScanState.Int from rfl]
      rw [show p ++ h :: (u2 ++ c :: rest) = w ++ c :: rest from by rw [hw]; simp]
      exact scan_int_run w f q c rest hne hnb hhash hres hsp (by omega)

/-- `State::Float+3` of the scanner: a sign moves to `Float+4`, a
digit to `Float+5`, anything else restarts into the `Int`
hypothesis. -/
theorem scan_float3_run (w p u : List Char) (fuel : Nat) (q : Char) (c : Char)
    (rest : List Char)
    (hne : w ≠ [])
    (hnb : ∀ d ∈ w, is_non_blank d.toNat = true)
    (hhash : '#' ∉ w)
    (hres : ∀ i, i < w.length → w.getD i ' ' = '_' →
      is_reserved_lex (List.map toLowerAscii (w.take (i + 1))) = false)
    (hsp : isspace_c c = true)
    (hnq : ¬ w = ['?']) (hndot : ¬ w = ['.'])
    (hw : w = p ++ u)
    (hfuel : u.length + w.length + 6 ≤ fuel) :
    ∃ vt, scan fuel .Float3 .Float q false p (u ++ c :: rest) =
        Except.ok ⟨CIFToken.Value, vt, valueText w, c :: rest⟩ ∧
      (w = ['?'] → vt = CIFValue.Unknown) ∧
      (w = ['.'] → vt = CIFValue.Inapplicable) := by
  obtain ⟨hcnb, hcw, hcdot, hce, hcsgn, hcfl, hcint, hcu, hcdig⟩ := isspace_char_facts c hsp
  obtain ⟨f, rfl⟩ : ∃ f, fuel = f + 1 := ⟨fuel - 1, by omega⟩
  cases u with
  | nil =>
    rw [List.nil_append]
    simp only [scan]
    rw [if_neg hcsgn, if_neg (by simp [hcdig]),
      show restartState ScanState.Float = ScanState.Int from rfl]
    rw [show p ++ c :: rest = w ++ c :: rest from by rw [hw, List.append_nil]]
    exact scan_int_run w f q c rest hne hnb hhash hres hsp (by omega)
  | cons h u2 =>
    simp only [List.length_cons] at hfuel
    rw [show (h :: u2) ++ c :: rest = h :: (u2 ++ c :: rest) from by simp]
    by_cases hsgn : h = '-' ∨ h = '+'
    · simp only [scan]
      rw [if_pos hsgn]
      exact scan_float4_run w (p ++ [h]) u2 f q c rest hne hnb hhash hres hsp hnq hndot
        (by rw [hw]; simp) (by omega)
    · by_cases hdig : isdigit_c h = true
      · simp only [scan]
        rw [if_neg hsgn, if_pos hdig]
        exact scan_float5_run w (p ++ [h]) u2 f q c rest hne hnb hhash hres hsp hnq hndot
          (by rw [hw]; simp) (by omega)
      · simp only [scan]
        rw [if_neg hsgn, if_neg (by simp [hdig]),
          show restartState ScanState.Float = ScanState.Int from rfl]
        rw [show p ++ h :: (u2 ++ c :: rest) = w ++ c :: rest from by rw [hw]; simp]
        exact scan_int_run w f q c rest hne hnb hhash hres hsp (by omega)

/-- `State::Float+2` of the scanner: `e`/`E` moves to `Float+3`,
whitespace accepts the float, anything else restarts into the `Int`
hypothesis. -/
theorem scan_float2_run (w p u : List Char) (fuel : Nat) (q : Char) (c : Char)
    (rest : List Char)
    (hne : w ≠ [])
    (hnb : ∀ d ∈ w, is_non_blank d.toNat = true)
    (hhash : '#' ∉ w)
    (hres : ∀ i, i < w.length → w.getD i ' ' = '_' →
      is_reserved_lex (List.map toLowerAscii (w.take (i + 1))) = false)
    (hsp : isspace_c c = true)
    (hnq : ¬ w = ['?']) (hndot : ¬ w = ['.'])
    (hw : w = p ++ u)
    (hfuel : u.length + w.length + 7 ≤ fuel) :
    ∃ vt, scan fuel .Float2 .Float q false p (u ++ c :: rest) =
        Except.ok ⟨CIFToken.Value, vt, valueText w, c :: rest⟩ ∧
      (w = ['?'] → vt = CIFValue.Unknown) ∧
      (w = ['.'] → vt = CIFValue.Inapplicable) := by
  obtain ⟨hcnb, hcw, hcdot, hce, hcsgn, hcfl, hcint, hcu, hcdig⟩ := isspace_char_facts c hsp
  obtain ⟨f, rfl⟩ : ∃ f, fuel = f + 1 := ⟨fuel - 1, by omega⟩
  cases u with
  | nil =>
    refine ⟨CIFValue.Float, ?_, fun hcon => absurd hcon hnq, fun hcon => absurd hcon hndot⟩
    rw [List.nil_append]
    simp only [scan]
    rw [if_neg hce, if_pos hcw]
    rw [show p = w from by rw [hw, List.append_nil]]
    rw [show valueText w = w from by simp [valueText, hnq]]
  | cons h u2 =>
    simp only [List.length_cons] at hfuel
    rw [show (h :: u2) ++ c :: rest = h :: (u2 ++ c :: rest) from by simp]
    by_cases hge : toLowerAscii h = 'e'
    · simp only [scan]
      rw [if_pos hge]
      exact scan_float3_run w (p ++ [h]) u2 f q c rest hne hnb hhash hres hsp hnq hndot
        (by rw [hw]; simp) (by omega)
    · have hhnb : is_non_blank h.toNat = true := hnb h (by rw [hw]; simp)
      have hhw : is_white h = false :=
        nonblank_not_white h hhnb (fun hc => hhash (by rw [hw, ← hc]; simp))
      simp only [scan]
      rw [if_neg hge, if_neg (by simp [hhw]),
        show restartState ScanState.Float = ScanState.Int from rfl]
      rw [show p ++ h :: (u2 ++ c :: rest) = w ++ c :: rest from by rw [hw]; simp]
      exact scan_int_run w f q c rest hne hnb hhash hres hsp (by omega)

/-- `State::Float+1` of the scanner: `.` moves to `Float+2`, `e`/`E`
to `Float+3`, whitespace accepts an integer, anything else restarts
into the `Int` hypothesis. -/
theorem scan_float1_run (w p u : List Char) (fuel : Nat) (q : Char) (c : Char)
    (rest : List Char)
    (hne : w ≠ [])
    (hnb : ∀ d ∈ w, is_non_blank d.toNat = true)
    (hhash : '#' ∉ w)
    (hres : ∀ i, i < w.length → w.getD i ' ' = '_' →
      is_reserved_lex (List.map toLowerAscii (w.take (i + 1))) = false)
    (hsp : isspace_c c = true)
    (hnq : ¬ w = ['?']) (hndot : ¬ w = ['.'])
    (hw : w = p ++ u)
    (hfuel : u.length + w.length + 8 ≤ fuel) :
    ∃ vt, scan fuel .Float1 .Float q false p (u ++ c :: rest) =
        Except.ok ⟨CIFToken.Value, vt, valueText w, c :: rest⟩ ∧
      (w = ['?'] → vt = CIFValue.Unknown) ∧
      (w = ['.'] → vt = CIFValue.Inapplicable) := by
  obtain ⟨hcnb, hcw, hcdot, hce, hcsgn, hcfl, hcint, hcu, hcdig⟩ := isspace_char_facts c hsp
  obtain ⟨f, rfl⟩ : ∃ f, fuel = f + 1 := ⟨fuel - 1, by omega⟩
  cases u with
  | nil =>
    refine ⟨CIFValue.Int, ?_, fun hcon => absurd hcon hnq, fun hcon => absurd hcon hndot⟩
    rw [List.nil_append]
    simp only [scan]
    rw [if_neg hcdot, if_neg hce, if_pos hcw]
    rw [show p = w from by rw [hw, List.append_nil]]
    rw [show valueText w = w from by simp [valueText, hnq]]
  | cons h u2 =>
    simp only [List.length_cons] at hfuel
    rw [show (h :: u2) ++ c :: rest = h :: (u2 ++ c :: rest) from by simp]
    by_cases hhdot : h = '.'
    · simp only [scan]
      rw [if_pos hhdot]
      exact scan_float2_run w (p ++ [h]) u2 f q c rest hne hnb hhash hres hsp hnq hndot
        (by rw [hw]; simp) (by omega)
    · by_cases hge : toLowerAscii h = 'e'
      · simp only [scan]
        rw [if_neg hhdot, if_pos hge]
        exact scan_float3_run w (p ++ [h]) u2 f q c rest hne hnb hhash hres hsp hnq hndot
          (by rw [hw]; simp) (by omega)
      · have hhnb : is_non_blank h.toNat = true := hnb h (by rw [hw]; simp)
        have hhw : is_white h = false :=
          nonblank_not_white h hhnb (fun hc => hhash (by rw [hw, ← hc]; simp))
        simp only [scan]
        rw [if_neg hhdot, if_neg hge, if_neg (by simp [hhw]),
          show restartState ScanState.Float = ScanState.Int from rfl]
        rw [show p ++ h :: (u2 ++ c :: rest) = w ++ c :: rest from by rw [hw]; simp]
        exact scan_int_run w f q c rest hne hnb hhash hres hsp (by omega)

/-- The `Float` hypothesis phase of the restart ladder: on a
non-blank, `#`-free, reserved-free lexeme followed by whitespace, the
scanner either accepts a numeric shape with the lexeme's text intact,
or falls through `Int` into `Value`, which applies the `?`/`.`
special cases. -/
theorem scan_float_run (w : List Char) (fuel : Nat) (q : Char) (c : Char)
    (rest : List Char)
    (hne : w ≠ [])
    (hnb : ∀ d ∈ w, is_non_blank d.toNat = true)
    (hhash : '#' ∉ w)
    (hres : ∀ i, i < w.length → w.getD i ' ' = '_' →
      is_reserved_lex (List.map toLowerAscii (w.take (i + 1))) = false)
    (hsp : isspace_c c = true)
    (hfuel : 2 * w.length + 9 ≤ fuel) :
    ∃ vt, scan fuel .Float .Float q false [] (w ++ c :: rest) =
        Except.ok ⟨CIFToken.Value, vt, valueText w, c :: rest⟩ ∧
      (w = ['?'] → vt = CIFValue.Unknown) ∧
      (w = ['.'] → vt = CIFValue.Inapplicable) := by
  obtain ⟨d, w2, rfl⟩ : ∃ d w2, w = d :: w2 := by
    cases w with
    | nil => exact absurd rfl hne
    | cons d w2 => exact ⟨d, w2, rfl⟩
  obtain ⟨f, rfl⟩ : ∃ f, fuel = f + 1 := ⟨fuel - 1, by omega⟩
  simp only [List.length_cons] at hfuel
  rw [show (d :: w2) ++ c :: rest = d :: (w2 ++ c :: rest) from by simp]
  by_cases hd1 : d = '+' ∨ d = '-' ∨ isdigit_c d = true
  · obtain ⟨hdq, hddot⟩ := signdigit_facts d hd1
    have hnq : ¬ d :: w2 = ['?'] := by
      intro hcon; injection hcon with h1 _; exact absurd h1 hdq
    have hndot : ¬ d :: w2 = ['.'] := by
      intro hcon; injection hcon with h1 _; exact absurd h1 hddot
    simp only [scan]
    rw [if_pos hd1, List.nil_append]
    exact scan_float1_run (d :: w2) [d] w2 f q c rest hne hnb hhash hres hsp hnq hndot
      (by simp) (by simp only [List.length_cons]; omega)
  · simp only [scan]
    rw [if_neg hd1, show restartState ScanState.Float = ScanState.Int from rfl]
    rw [show [] ++ d :: (w2 ++ c :: rest) = (d :: w2) ++ c :: rest from by simp]
    exact scan_int_run (d :: w2) f q c rest hne hnb hhash hres hsp
      (by simp only [List.length_cons]; omega)

/-- Claim C6: any unquoted lexeme of non-blank characters (not
starting a tag, comment or quoted string, containing no `#` and not
completing a reserved word) followed by whitespace is returned as a
`Value` token whose stored text is the lexeme itself, except that `?`
stores the empty string; `?` is classified `Unknown` and `.` is
classified `Inapplicable`. -/
theorem get_next_token_unquoted (w : List Char) (c : Char) (rest : List Char)
    (hne : w ≠ [])
    (hnb : ∀ d ∈ w, is_non_blank d.toNat = true)
    (hhash : '#' ∉ w)
    (hhu : ¬ w.getD 0 ' ' = '_')
    (hhq : ¬ (w.getD 0 ' ' = '\'' ∨ w.getD 0 ' ' = '"'))
    (hnr : no_reserved w = true)
    (hsp : isspace_c c = true)
    (hccr : c.toNat ≠ 13) :
    ∃ vt, get_next_token (w ++ c :: rest) =
        Except.ok ⟨CIFToken.Value, vt, valueText w, c :: normalize_crlf rest⟩ ∧
      (w = ['?'] → vt = CIFValue.Unknown) ∧
      (w = ['.'] → vt = CIFValue.Inapplicable) := by
  obtain ⟨d, w2, rfl⟩ : ∃ d w2, w = d :: w2 := by
    cases w with
    | nil => exact absurd rfl hne
    | cons d w2 => exact ⟨d, w2, rfl⟩
  simp only [List.getD_cons_zero] at hhu hhq
  have hnocr : ∀ x ∈ (d :: w2) ++ [c], x.toNat ≠ 13 := by
    intro x hx
    rcases List.mem_append.1 hx with hx | hx
    · exact (nonblank_char_facts x (hnb x hx)).2.2.2
    · simp only [List.mem_singleton] at hx
      rw [hx]; exact hccr
  have hNorm : normalize_crlf ((d :: w2) ++ c :: rest) =
      (d :: w2) ++ c :: normalize_crlf rest := by
    rw [show (d :: w2) ++ c :: rest = ((d :: w2) ++ [c]) ++ rest from by simp,
        normalize_crlf_append _ rest hnocr]
    simp
  simp only [get_next_token]
  rw [hNorm]
  have hlen : ((d :: w2) ++ c :: rest).length = w2.length + 2 + rest.length := by
    simp [List.length_append]
    omega
  obtain ⟨f, hf⟩ : ∃ f, 8 * ((d :: w2) ++ c :: rest).length + 16 = f + 1 :=
    ⟨8 * ((d :: w2) ++ c :: rest).length + 15, by omega⟩
  have hfge : 2 * (d :: w2).length + 10 ≤ f + 1 := by
    rw [← hf, hlen]
    simp only [List.length_cons]
    omega
  rw [hf]
  obtain ⟨hd_nl, hd_sp9, hd_ssp, _⟩ := nonblank_char_facts d (hnb d (by simp))
  rw [show (d :: w2) ++ c :: normalize_crlf rest =
    d :: (w2 ++ c :: normalize_crlf rest) from by simp]
  simp only [scan]
  rw [if_neg hd_nl, if_neg hd_sp9,
      if_neg (show ¬ d = '#' from fun hc => hhash (by simp [hc])),
      if_neg hhu, if_neg (show ¬ (d = ';' ∧ false = true) from fun hcon => by
        simpa using hcon.2),
      if_neg hhq, show restartState ScanState.Start = ScanState.Float from rfl]
  rw [show [] ++ d :: (w2 ++ c :: normalize_crlf rest) =
    (d :: w2) ++ c :: normalize_crlf rest from by simp]
  exact scan_float_run (d :: w2) f ' ' c (normalize_crlf rest) hne hnb hhash
    (no_reserved_spec _ hnr) hsp (by simp only [List.length_cons] at hfge ⊢; omega)

/-- Witness for C6 at the lexeme `?` followed by a space: the token
is a `Value` of type `Unknown` and the stored text is empty. -/
theorem get_next_token_unquoted_witness :
    (no_reserved (sl "?") = true ∧ isspace_c ' ' = true) ∧
    (∃ vt, get_next_token (sl "?" ++ ' ' :: sl "x") =
        Except.ok ⟨CIFToken.Value, vt, valueText (sl "?"), ' ' :: normalize_crlf (sl "x")⟩ ∧
      (sl "?" = ['?'] → vt = CIFValue.Unknown) ∧
      (sl "?" = ['.'] → vt = CIFValue.Inapplicable)) :=
  ⟨⟨by decide, by decide⟩,
    get_next_token_unquoted (sl "?") ' ' (sl "x") (by decide) (by decide) (by decide)
      (by decide) (by decide) (by decide) (by decide) (by decide)⟩

/-- Claim C7 (amended): a quoted string is terminated exactly when
the matching quote character is immediately followed by a character
the scanner treats as white, i.e. whitespace or `#`; a matching
quote followed by any other printable character is content and
scanning continues (the witness string contains such an embedded
quote). -/
theorem get_next_token_quoted (q : Char) (w : List Char) (c : Char) (rest : List Char)
    (hq : q = '\'' ∨ q = '"')
    (hsafe : quote_safeB q w = true)
    (hnocr : ∀ d ∈ w, d.toNat ≠ 13)
    (hcw : is_white c = true)
    (hccr : c.toNat ≠ 13) :
    get_next_token (q :: w ++ q :: c :: rest) =
      Except.ok ⟨CIFToken.Value, CIFValue.String, w, c :: normalize_crlf rest⟩ := by
  have hqw : is_white q = false := by
    rcases hq with rfl | rfl <;> decide
  have hq13 : q.toNat ≠ 13 := by
    rcases hq with rfl | rfl <;> decide
  have hnocr1 : ∀ x ∈ (q :: w) ++ [q, c], x.toNat ≠ 13 := by
    intro x hx
    rcases List.mem_append.1 hx with hx | hx
    · rcases List.mem_cons.1 hx with hx | hx
      · rw [hx]; exact hq13
      · exact hnocr x hx
    · rcases List.mem_cons.1 hx with hx | hx
      · rw [hx]; exact hq13
      · simp only [List.mem_singleton] at hx
        rw [hx]; exact hccr
  have hNorm : normalize_crlf ((q :: w) ++ q :: c :: rest) =
      (q :: w) ++ q :: c :: normalize_crlf rest := by
    rw [show (q :: w) ++ q :: c :: rest = ((q :: w) ++ [q, c]) ++ rest from by simp,
        normalize_crlf_append _ rest hnocr1]
    simp
  simp only [get_next_token]
  rw [hNorm]
  obtain ⟨f, hf⟩ : ∃ f, 8 * ((q :: w) ++ q :: c :: rest).length + 16 = f + 1 :=
    ⟨8 * ((q :: w) ++ q :: c :: rest).length + 15, by omega⟩
  have hfge : w.length + 4 ≤ f + 1 := by
    rw [← hf]
    simp [List.length_append]
    omega
  rw [hf]
  rw [show (q :: w) ++ q :: c :: normalize_crlf rest =
    q :: (w ++ q :: c :: normalize_crlf rest) from by simp]
  have hstart : scan (f + 1) .Start .Start ' ' false []
      (q :: (w ++ q :: c :: normalize_crlf rest)) =
      scan f .QuotedString .Start q false [q] (w ++ q :: c :: normalize_crlf rest) := by
    rcases hq with rfl | rfl <;> rfl
  rw [hstart]
  rw [scan_quoted_run q hqw w f .QuotedString [q] false .Start c (normalize_crlf rest)
    (Or.inl rfl) (by intro hcon; cases hcon) (quote_safeB_spec q w hsafe) hcw
    (by simp) (by omega)]
  rw [show (([q] ++ w ++ [q]).drop 1).dropLast = w from by simp]

/-- Counterexample to C7 as stated: the scanner's `is_white` also
holds for `#`, so a quoted string is terminated by a closing quote
followed by `#`, which is not whitespace. -/
theorem get_next_token_quote_hash :
    get_next_token (sl "'a'#b") =
      Except.ok ⟨CIFToken.Value, CIFValue.String, sl "a", sl "#b"⟩ ∧
    isspace_c '#' = false :=
  ⟨rfl, by decide⟩

/-- Witness for C7: the single-quoted string `'a'b'` followed by a
space yields the text `a'b` (the embedded quote before `b` is
content), consuming through the closing quote. -/
theorem get_next_token_quoted_witness :
    (quote_safeB '\'' (sl "a'b") = true ∧ is_white ' ' = true) ∧
    get_next_token ('\'' :: sl "a'b" ++ '\'' :: ' ' :: sl "z") =
      Except.ok ⟨CIFToken.Value, CIFValue.String, sl "a'b", ' ' :: normalize_crlf (sl "z")⟩ :=
  ⟨⟨by decide, by decide⟩,
    get_next_token_quoted '\'' (sl "a'b") ' ' (sl "z") (Or.inl rfl) (by decide)
      (by decide) (by decide) (by decide)⟩

end Cif
